import Mathlib

/-!
Verification of the player-card enrichment subsystem: identity parser,
class-name table, enrichment cache, best-kill resolver, upstream response
normalization, and the enrich orchestrator, shallowly embedded from the
TypeScript sources.
-/

/-! ## Class Name Table (src/lib/wcl-class-map.ts) -/

/-- Embedding of `getWCLClassName`: WCL_CLASS_ID_TO_NAME lookup with
fallback `"Unknown"` (source: `WCL_CLASS_ID_TO_NAME[classID] || 'Unknown'`).
The table uses WCL's alphabetical ordering. -/
def getWCLClassName (classID : Int) : String :=
  if classID = 1 then "Death Knight"
  else if classID = 2 then "Druid"
  else if classID = 3 then "Hunter"
  else if classID = 4 then "Mage"
  else if classID = 5 then "Monk"
  else if classID = 6 then "Paladin"
  else if classID = 7 then "Priest"
  else if classID = 8 then "Rogue"
  else if classID = 9 then "Shaman"
  else if classID = 10 then "Warlock"
  else if classID = 11 then "Warrior"
  else if classID = 12 then "Demon Hunter"
  else if classID = 13 then "Evoker"
  else "Unknown"

/-! ## Best-Kill Resolver (src/unnamed/part_002, `computeBestBossKill`) -/

/-- Difficulty names used by the route's `DIFFICULTY_MAP`. -/
inductive Difficulty where
  | Normal
  | Heroic
  | Mythic
deriving DecidableEq, Repr

/-- Embedding of `DIFFICULTY_MAP`: numeric WCL difficulty to name
(5 → Mythic, 4 → Heroic, 3 → Normal, anything else absent). -/
def DIFFICULTY_MAP (d : Int) : Option Difficulty :=
  if d = 5 then some .Mythic
  else if d = 4 then some .Heroic
  else if d = 3 then some .Normal
  else none

/-- Embedding of `DIFFICULTY_RANK`. -/
def DIFFICULTY_RANK : Difficulty → Nat
  | .Mythic => 3
  | .Heroic => 2
  | .Normal => 1

/-- One kill record inside a zone-progression encounter. -/
structure Kill where
  difficulty : Int
  killDate : Option Int
deriving DecidableEq, Repr

/-- One encounter of the zone-progression payload. -/
structure ProgEncounter where
  encounterId : Int
  encounterName : String
  kills : List Kill
deriving DecidableEq, Repr

/-- Zone-progression payload (`fetchCharacterZoneProgression` result shape). -/
structure Progression where
  encounters : List ProgEncounter
deriving DecidableEq, Repr

/-- One entry of the season config's `encounter_names` list. -/
structure EncounterNameEntry where
  id : Int
  name : String
deriving DecidableEq, Repr

/-- Best-kill record as built by the route (`bestKillLatestSeason`). -/
structure BestKill where
  bossId : Int
  bossName : String
  difficulty : Difficulty
  orderIndex : Nat
deriving DecidableEq, Repr

/-- Embedding of the inner `for (const kill of encounter.kills)` loop of
`computeBestBossKill`: running hardest difficulty, updated when the mapped
difficulty has strictly greater rank. -/
def hardestDifficultyGo (acc : Option Difficulty) : List Kill → Option Difficulty
  | [] => acc
  | k :: rest =>
    match DIFFICULTY_MAP k.difficulty with
    | none => hardestDifficultyGo acc rest
    | some dn =>
      match acc with
      | none => hardestDifficultyGo (some dn) rest
      | some h =>
        if DIFFICULTY_RANK dn > DIFFICULTY_RANK h then hardestDifficultyGo (some dn) rest
        else hardestDifficultyGo (some h) rest

/-- Embedding of the outer loop of `computeBestBossKill`, counting
`orderIndex` down from `encounterOrder.length - 1`; the `fuel` argument is
`orderIndex + 1`. -/
def bestKillGo (prog : Progression) (encounterOrder : List Int)
    (encounterNames : List EncounterNameEntry) : Nat → Option BestKill
  | 0 => none
  | i + 1 =>
    let encounterId := encounterOrder.getD i 0
    match prog.encounters.find? (fun e => e.encounterId = encounterId) with
    | none => bestKillGo prog encounterOrder encounterNames i
    | some encounter =>
      if encounter.kills = [] then bestKillGo prog encounterOrder encounterNames i
      else
        match hardestDifficultyGo none encounter.kills with
        | none => bestKillGo prog encounterOrder encounterNames i
        | some hardest =>
          some { bossId := encounterId
                 bossName := ((encounterNames.find? (fun en => en.id = encounterId)).map
                     EncounterNameEntry.name).getD ("Boss " ++ toString encounterId)
                 difficulty := hardest
                 orderIndex := i }

/-- Embedding of `computeBestBossKill` (src/unnamed/part_002 lines 69-138). -/
def computeBestBossKill (prog : Progression) (encounterOrder : List Int)
    (encounterNames : List EncounterNameEntry) : Option BestKill :=
  if prog.encounters = [] then none
  else bestKillGo prog encounterOrder encounterNames encounterOrder.length

/-- Kills recorded for the encounter at order index `i` (the list the source
reads through `progression.encounters.find(e => e.encounterId === encounterId)`). -/
def killsAtIndex (prog : Progression) (encounterOrder : List Int) (i : Nat) : List Kill :=
  match prog.encounters.find? (fun e => e.encounterId = encounterOrder.getD i 0) with
  | none => []
  | some e => e.kills

/-! ## Enrichment cache data model (src/lib/character-enrichment-cache.ts) -/

/-- Fetch status column; `.incomplete` models the source string `'partial'`. -/
inductive FetchStatus where
  | complete
  | incomplete
  | failed
deriving DecidableEq, Repr

/-- Parsed `player_card` JSON blob as read by `buildPlayerCardFromCache`.
JSON (de)serialization at the storage edge is modeled as the identity. -/
structure StoredCard where
  «class» : Option String
  spec : Option String
  avatarUrl : Option String
  bestKillLatestSeason : Option BestKill
  classSpec : Option String
deriving DecidableEq, Repr

/-- One row of `character_enrichment_cache`. Timestamps are milliseconds
since epoch. (The `character_id` value passed by the route is dropped by the
cache layer: neither the INSERT column list nor `updateCacheEntry` mention
it, so it is not modeled.) -/
structure CacheRow where
  region : String
  realm : String
  character_name : String
  season_key : String
  player_card : StoredCard
  wcl_last_fetched_at : Option String
  blizzard_last_fetched_at : Option String
  fetch_status : FetchStatus
  error_message : Option String
  created_at : Int
  updated_at : Int
deriving DecidableEq, Repr

/-- Embedding of `isCacheStale(cache, maxAgeHours)`: true when the entry is
absent or `(now - updatedAt) / (1000*60*60) >= maxAgeHours`. The source
reads `now` from the clock; it is an explicit argument here. -/
def isCacheStale (cache : Option CacheRow) (maxAgeHours : ℚ) (nowMs : Int) : Bool :=
  match cache with
  | none => true
  | some c => decide ((((nowMs : ℚ) - (c.updated_at : ℚ)) / (1000 * 60 * 60)) ≥ maxAgeHours)

/-! ## Helper lemmas for the best-kill resolver -/

/-- If the inner difficulty loop returns `none`, the accumulator was `none`
and no kill mapped to a named difficulty. -/
theorem hardestDifficultyGo_eq_none (kills : List Kill) :
    ∀ acc, hardestDifficultyGo acc kills = none →
      acc = none ∧ ∀ k ∈ kills, DIFFICULTY_MAP k.difficulty = none := by
  induction kills with
  | nil => intro acc h; exact ⟨h, by simp⟩
  | cons k rest ih =>
    intro acc h
    cases hm : DIFFICULTY_MAP k.difficulty with
    | none =>
      simp only [hardestDifficultyGo, hm] at h
      obtain ⟨h1, h2⟩ := ih acc h
      refine ⟨h1, ?_⟩
      intro k' hk'
      rcases List.mem_cons.mp hk' with h' | h'
      · exact h' ▸ hm
      · exact h2 k' h'
    | some dn =>
      cases acc with
      | none =>
        simp only [hardestDifficultyGo, hm] at h
        exact absurd (ih (some dn) h).1 (by simp)
      | some hd =>
        by_cases hr : DIFFICULTY_RANK dn > DIFFICULTY_RANK hd
        · simp only [hardestDifficultyGo, hm, if_pos hr] at h
          exact absurd (ih (some dn) h).1 (by simp)
        · simp only [hardestDifficultyGo, hm, if_neg hr] at h
          exact absurd (ih (some hd) h).1 (by simp)

/-- A returned hardest difficulty comes from the accumulator or from some kill. -/
theorem hardestDifficultyGo_some_mem (kills : List Kill) :
    ∀ acc d, hardestDifficultyGo acc kills = some d →
      acc = some d ∨ ∃ k ∈ kills, DIFFICULTY_MAP k.difficulty = some d := by
  induction kills with
  | nil => intro acc d h; exact Or.inl h
  | cons k rest ih =>
    intro acc d h
    cases hm : DIFFICULTY_MAP k.difficulty with
    | none =>
      simp only [hardestDifficultyGo, hm] at h
      rcases ih acc d h with h' | ⟨k', hk', hm'⟩
      · exact Or.inl h'
      · exact Or.inr ⟨k', List.mem_cons_of_mem _ hk', hm'⟩
    | some dn =>
      have step : hardestDifficultyGo (some dn) rest = some d →
          acc = some d ∨ ∃ k' ∈ k :: rest, DIFFICULTY_MAP k'.difficulty = some d := by
        intro h'
        rcases ih (some dn) d h' with h'' | ⟨k', hk', hm'⟩
        · refine Or.inr ⟨k, List.mem_cons_self _ _, ?_⟩
          rw [hm]; exact h''
        · exact Or.inr ⟨k', List.mem_cons_of_mem _ hk', hm'⟩
      cases acc with
      | none =>
        simp only [hardestDifficultyGo, hm] at h
        exact step h
      | some hd =>
        by_cases hr : DIFFICULTY_RANK dn > DIFFICULTY_RANK hd
        · simp only [hardestDifficultyGo, hm, if_pos hr] at h
          exact step h
        · simp only [hardestDifficultyGo, hm, if_neg hr] at h
          rcases ih (some hd) d h with h'' | ⟨k', hk', hm'⟩
          · exact Or.inl h''
          · exact Or.inr ⟨k', List.mem_cons_of_mem _ hk', hm'⟩

/-- The returned hardest difficulty bounds the accumulator and the rank of
every mapped kill difficulty. -/
theorem hardestDifficultyGo_ub (kills : List Kill) :
    ∀ acc d, hardestDifficultyGo acc kills = some d →
      (∀ d0, acc = some d0 → DIFFICULTY_RANK d0 ≤ DIFFICULTY_RANK d) ∧
      ∀ k ∈ kills, ∀ d', DIFFICULTY_MAP k.difficulty = some d' →
        DIFFICULTY_RANK d' ≤ DIFFICULTY_RANK d := by
  induction kills with
  | nil =>
    intro acc d h
    refine ⟨?_, by simp⟩
    intro d0 h0
    rw [h0] at h
    cases h
    exact le_refl _
  | cons k rest ih =>
    intro acc d h
    cases hm : DIFFICULTY_MAP k.difficulty with
    | none =>
      simp only [hardestDifficultyGo, hm] at h
      obtain ⟨h1, h2⟩ := ih acc d h
      refine ⟨h1, ?_⟩
      intro k' hk' d' hm'
      rcases List.mem_cons.mp hk' with h' | h'
      · rw [h', hm] at hm'; cases hm'
      · exact h2 k' h' d' hm'
    | some dn =>
      cases acc with
      | none =>
        simp only [hardestDifficultyGo, hm] at h
        obtain ⟨h1, h2⟩ := ih (some dn) d h
        have hdn : DIFFICULTY_RANK dn ≤ DIFFICULTY_RANK d := h1 dn rfl
        refine ⟨by simp, ?_⟩
        intro k' hk' d' hm'
        rcases List.mem_cons.mp hk' with h' | h'
        · rw [h', hm] at hm'; cases hm'; exact hdn
        · exact h2 k' h' d' hm'
      | some hd =>
        by_cases hr : DIFFICULTY_RANK dn > DIFFICULTY_RANK hd
        · simp only [hardestDifficultyGo, hm, if_pos hr] at h
          obtain ⟨h1, h2⟩ := ih (some dn) d h
          have hdn : DIFFICULTY_RANK dn ≤ DIFFICULTY_RANK d := h1 dn rfl
          refine ⟨?_, ?_⟩
          · intro d0 h0
            cases h0
            exact le_trans (le_of_lt hr) hdn
          · intro k' hk' d' hm'
            rcases List.mem_cons.mp hk' with h' | h'
            · rw [h', hm] at hm'; cases hm'; exact hdn
            · exact h2 k' h' d' hm'
        · simp only [hardestDifficultyGo, hm, if_neg hr] at h
          obtain ⟨h1, h2⟩ := ih (some hd) d h
          have hhd : DIFFICULTY_RANK hd ≤ DIFFICULTY_RANK d := h1 hd rfl
          refine ⟨?_, ?_⟩
          · intro d0 h0
            cases h0
            exact hhd
          · intro k' hk' d' hm'
            rcases List.mem_cons.mp hk' with h' | h'
            · rw [h', hm] at hm'
              cases hm'
              exact le_trans (le_of_not_lt hr) hhd
            · exact h2 k' h' d' hm'

/-- Characterization of the outer scanning loop of `computeBestBossKill`,
for kill difficulties drawn from the Normal/Heroic/Mythic numeric codes. -/
theorem bestKillGo_spec (prog : Progression) (order : List Int)
    (names : List EncounterNameEntry)
    (hdom : ∀ e ∈ prog.encounters, ∀ k ∈ e.kills,
      k.difficulty = 3 ∨ k.difficulty = 4 ∨ k.difficulty = 5) :
    ∀ fuel,
      (bestKillGo prog order names fuel = none ↔
        ∀ i < fuel, killsAtIndex prog order i = []) ∧
      (∀ b, bestKillGo prog order names fuel = some b →
        b.orderIndex < fuel ∧
        killsAtIndex prog order b.orderIndex ≠ [] ∧
        (∀ j, b.orderIndex < j → j < fuel → killsAtIndex prog order j = []) ∧
        b.bossId = order.getD b.orderIndex 0 ∧
        (∃ k ∈ killsAtIndex prog order b.orderIndex,
          DIFFICULTY_MAP k.difficulty = some b.difficulty) ∧
        (∀ k ∈ killsAtIndex prog order b.orderIndex, ∀ d,
          DIFFICULTY_MAP k.difficulty = some d →
            DIFFICULTY_RANK d ≤ DIFFICULTY_RANK b.difficulty) ∧
        b.bossName = ((names.find? (fun en => en.id = b.bossId)).map
          EncounterNameEntry.name).getD ("Boss " ++ toString b.bossId)) := by
  intro fuel
  induction fuel with
  | zero =>
    constructor
    · simp [bestKillGo]
    · intro b hb; simp [bestKillGo] at hb
  | succ i ih =>
    have succ_iff : ∀ j, j < i + 1 ↔ j < i ∨ j = i := by
      intro j; omega
    cases hfind : prog.encounters.find? (fun e => e.encounterId = order.getD i 0) with
    | none =>
      have hki : killsAtIndex prog order i = [] := by
        simp only [killsAtIndex, hfind]
      have hstep : bestKillGo prog order names (i + 1) = bestKillGo prog order names i := by
        simp only [bestKillGo, hfind]
      constructor
      · rw [hstep, ih.1]
        constructor
        · intro h j hj
          rcases (succ_iff j).mp hj with h' | h'
          · exact h j h'
          · exact h' ▸ hki
        · intro h j hj
          exact h j (Nat.lt_succ_of_lt hj)
      · intro b hb
        rw [hstep] at hb
        obtain ⟨h1, h2, h3, h4, h5, h6, h7⟩ := ih.2 b hb
        exact ⟨Nat.lt_succ_of_lt h1, h2, fun j hj hj' => by
          rcases (succ_iff j).mp hj' with h' | h'
          · exact h3 j hj h'
          · exact h' ▸ hki, h4, h5, h6, h7⟩
    | some enc =>
      have hki : killsAtIndex prog order i = enc.kills := by
        simp only [killsAtIndex, hfind]
      by_cases hkills : enc.kills = []
      · have hki' : killsAtIndex prog order i = [] := hki.trans hkills
        have hstep : bestKillGo prog order names (i + 1) = bestKillGo prog order names i := by
          simp only [bestKillGo, hfind, if_pos hkills]
        constructor
        · rw [hstep, ih.1]
          constructor
          · intro h j hj
            rcases (succ_iff j).mp hj with h' | h'
            · exact h j h'
            · exact h' ▸ hki'
          · intro h j hj
            exact h j (Nat.lt_succ_of_lt hj)
        · intro b hb
          rw [hstep] at hb
          obtain ⟨h1, h2, h3, h4, h5, h6, h7⟩ := ih.2 b hb
          exact ⟨Nat.lt_succ_of_lt h1, h2, fun j hj hj' => by
            rcases (succ_iff j).mp hj' with h' | h'
            · exact h3 j hj h'
            · exact h' ▸ hki', h4, h5, h6, h7⟩
      · have henc : enc ∈ prog.encounters := List.mem_of_find?_eq_some hfind
        have hhard : hardestDifficultyGo none enc.kills ≠ none := by
          intro hnone
          obtain ⟨k0, hk0⟩ := List.exists_mem_of_ne_nil enc.kills hkills
          have := (hardestDifficultyGo_eq_none enc.kills none hnone).2 k0 hk0
          rcases hdom enc henc k0 hk0 with h' | h' | h' <;>
            simp [DIFFICULTY_MAP, h'] at this
        cases hh : hardestDifficultyGo none enc.kills with
        | none => exact absurd hh hhard
        | some hardest =>
          have hstep : bestKillGo prog order names (i + 1) =
              some { bossId := order.getD i 0
                     bossName := ((names.find? (fun en => en.id = order.getD i 0)).map
                         EncounterNameEntry.name).getD ("Boss " ++ toString (order.getD i 0))
                     difficulty := hardest
                     orderIndex := i } := by
            simp only [bestKillGo, hfind, if_neg hkills, hh]
          constructor
          · rw [hstep]
            constructor
            · intro h; cases h
            · intro h
              exact absurd (hki ▸ h i (Nat.lt_succ_self i)) hkills
          · intro b hb
            rw [hstep] at hb
            cases hb
            refine ⟨Nat.lt_succ_self i, hki ▸ hkills, ?_, rfl, ?_, ?_, rfl⟩
            · intro j hj hj'
              exact absurd (show i < j from hj) (by omega)
            · rw [hki]
              rcases hardestDifficultyGo_some_mem enc.kills none hardest hh with h' | h'
              · cases h'
              · exact h'
            · rw [hki]
              intro k hk d hd
              exact (hardestDifficultyGo_ub enc.kills none hardest hh).2 k hk d hd

/-! ## Claim theorems: best-kill resolver, staleness, class table -/

/-- C3: `computeBestBossKill` scans `encounterOrder` from the last index down
to 0; for the first (deepest) encounter with at least one recorded kill it
returns that encounter with its hardest achieved difficulty under the rank
Mythic > Heroic > Normal and its order index, stopping immediately (every
deeper index has no kills); if no encounter has any kill it returns null.
In particular, for kills {order index 2: Heroic, order index 5: Normal and
Mythic} with an `encounterOrder` of length 8, it returns the encounter at
order index 5 at Mythic difficulty. -/
theorem c3_computeBestBossKill_deepest_first :
    (∀ (prog : Progression) (order : List Int) (names : List EncounterNameEntry),
      (∀ e ∈ prog.encounters, ∀ k ∈ e.kills,
        k.difficulty = 3 ∨ k.difficulty = 4 ∨ k.difficulty = 5) →
      (computeBestBossKill prog order names = none ↔
        ∀ i < order.length, killsAtIndex prog order i = []) ∧
      (∀ b, computeBestBossKill prog order names = some b →
        b.orderIndex < order.length ∧
        killsAtIndex prog order b.orderIndex ≠ [] ∧
        (∀ j, b.orderIndex < j → j < order.length → killsAtIndex prog order j = []) ∧
        b.bossId = order.getD b.orderIndex 0 ∧
        (∃ k ∈ killsAtIndex prog order b.orderIndex,
          DIFFICULTY_MAP k.difficulty = some b.difficulty) ∧
        (∀ k ∈ killsAtIndex prog order b.orderIndex, ∀ d,
          DIFFICULTY_MAP k.difficulty = some d →
            DIFFICULTY_RANK d ≤ DIFFICULTY_RANK b.difficulty) ∧
        b.bossName = ((names.find? (fun en => en.id = b.bossId)).map
          EncounterNameEntry.name).getD ("Boss " ++ toString b.bossId))) ∧
    computeBestBossKill
      ⟨[⟨103, "Boss Three", [⟨4, none⟩]⟩, ⟨106, "Boss Six", [⟨3, none⟩, ⟨5, none⟩]⟩]⟩
      [101, 102, 103, 104, 105, 106, 107, 108]
      [⟨103, "Boss Three"⟩, ⟨106, "Boss Six"⟩]
      = some ⟨106, "Boss Six", .Mythic, 5⟩ := by
  constructor
  · intro prog order names hdom
    by_cases hp : prog.encounters = []
    · constructor
      · simp [computeBestBossKill, hp, killsAtIndex, List.find?]
      · intro b hb
        simp [computeBestBossKill, hp] at hb
    · have hmain := bestKillGo_spec prog order names hdom order.length
      have hunfold : computeBestBossKill prog order names =
          bestKillGo prog order names order.length := by
        simp [computeBestBossKill, hp]
      rw [hunfold]
      exact hmain
  · decide

/-- Closed instance of `c3_computeBestBossKill_deepest_first`: with no
encounters the resolver returns null, and indeed no index has a kill. -/
theorem c3_computeBestBossKill_deepest_first_witness :
    computeBestBossKill ⟨[]⟩ [101, 102, 103] [] = none ↔
      ∀ i < [101, 102, 103].length, killsAtIndex ⟨[]⟩ [101, 102, 103] i = [] :=
  (c3_computeBestBossKill_deepest_first.1 ⟨[]⟩ [101, 102, 103] [] (by simp)).1

/-- C6: `isCacheStale(entry, maxAgeHours)` is true exactly when the entry is
null or `(now - updatedAt)` expressed in hours is `>= maxAgeHours`; it is
monotonic in the entry's age; and at a 6-hour threshold an entry updated
7 hours ago is stale while one updated 5 hours ago is not. -/
theorem c6_isCacheStale_characterization :
    (∀ (h : ℚ) (now : Int), isCacheStale none h now = true) ∧
    (∀ (c : CacheRow) (h : ℚ) (now : Int),
      isCacheStale (some c) h now = true ↔
        ((now : ℚ) - (c.updated_at : ℚ)) / (1000 * 60 * 60) ≥ h) ∧
    (∀ (c : CacheRow) (h : ℚ) (now now' : Int), now ≤ now' →
      isCacheStale (some c) h now = true → isCacheStale (some c) h now' = true) ∧
    isCacheStale
      (some ⟨"US", "area-52", "Testchar", "latest", ⟨none, none, none, none, none⟩,
        none, none, .complete, none, 0, 0⟩) 6 (7 * 3600000) = true ∧
    isCacheStale
      (some ⟨"US", "area-52", "Testchar", "latest", ⟨none, none, none, none, none⟩,
        none, none, .complete, none, 0, 0⟩) 6 (5 * 3600000) = false := by
  refine ⟨fun h now => rfl, fun c h now => by simp [isCacheStale], ?_, by norm_num [isCacheStale],
    by norm_num [isCacheStale]⟩
  intro c h now now' hle hstale
  simp only [isCacheStale, decide_eq_true_eq] at hstale ⊢
  refine le_trans hstale ?_
  have hnum : ((now : ℚ) - (c.updated_at : ℚ)) ≤ ((now' : ℚ) - (c.updated_at : ℚ)) := by
    have : (now : ℚ) ≤ (now' : ℚ) := by exact_mod_cast hle
    linarith
  have hpos : (0 : ℚ) ≤ 1000 * 60 * 60 := by norm_num
  exact div_le_div_of_nonneg_right hnum hpos

/-- Closed instance of `c6_isCacheStale_characterization`: staleness is
preserved as the entry ages from 7 to 8 hours at a 6-hour threshold. -/
theorem c6_isCacheStale_characterization_witness :
    isCacheStale
      (some ⟨"US", "area-52", "Testchar", "latest", ⟨none, none, none, none, none⟩,
        none, none, .complete, none, 0, 0⟩) 6 (8 * 3600000) = true :=
  c6_isCacheStale_characterization.2.2.1
    ⟨"US", "area-52", "Testchar", "latest", ⟨none, none, none, none, none⟩,
      none, none, .complete, none, 0, 0⟩ 6 (7 * 3600000) (8 * 3600000)
    (by norm_num) (by norm_num [isCacheStale])

/-- C10: `getWCLClassName` is total; it returns the alphabetical-table name
for every index in 1..13 and the string "Unknown" for every other integer
index (e.g. 0, 14, negative values). -/
theorem c10_getWCLClassName_total :
    (∀ i : Int, (i < 1 ∨ 13 < i) → getWCLClassName i = "Unknown") ∧
    getWCLClassName 1 = "Death Knight" ∧ getWCLClassName 2 = "Druid" ∧
    getWCLClassName 3 = "Hunter" ∧ getWCLClassName 4 = "Mage" ∧
    getWCLClassName 5 = "Monk" ∧ getWCLClassName 6 = "Paladin" ∧
    getWCLClassName 7 = "Priest" ∧ getWCLClassName 8 = "Rogue" ∧
    getWCLClassName 9 = "Shaman" ∧ getWCLClassName 10 = "Warlock" ∧
    getWCLClassName 11 = "Warrior" ∧ getWCLClassName 12 = "Demon Hunter" ∧
    getWCLClassName 13 = "Evoker" ∧
    getWCLClassName 0 = "Unknown" ∧ getWCLClassName 14 = "Unknown" ∧
    getWCLClassName (-3) = "Unknown" := by
  refine ⟨?_, by decide⟩
  intro i hi
  rcases hi with hi | hi <;>
    · simp only [getWCLClassName]
      repeat rw [if_neg (by omega)]

/-- Closed instance of `c10_getWCLClassName_total`: index 99 is outside the
table and maps to "Unknown". -/
theorem c10_getWCLClassName_total_witness : getWCLClassName 99 = "Unknown" :=
  c10_getWCLClassName_total.1 99 (Or.inr (by decide))

/-! ## Identity Parser (src/lib/warcraft-logs-parser.ts)

Strings are modeled as `List Char`; the JS string operations used by the
parser (`toLowerCase`, `toUpperCase`, `trim`, `split`, `includes`,
`startsWith`) are embedded character-wise for the ASCII range the parser's
validation admits. -/

/-- JS-style strings as character lists. -/
abbrev Str := List Char

/-- ASCII lowercasing, matching JS `toLowerCase` on ASCII characters. -/
def toLowerChar (c : Char) : Char :=
  if 'A' ≤ c ∧ c ≤ 'Z' then Char.ofNat (c.toNat + 32) else c

/-- ASCII uppercasing, matching JS `toUpperCase` on ASCII characters. -/
def toUpperChar (c : Char) : Char :=
  if 'a' ≤ c ∧ c ≤ 'z' then Char.ofNat (c.toNat - 32) else c

/-- The regex class `[a-zA-Z]` used for character names. -/
def isAsciiLetter (c : Char) : Bool :=
  decide (('a' ≤ c ∧ c ≤ 'z') ∨ ('A' ≤ c ∧ c ≤ 'Z'))

/-- The regex class `[a-z0-9-]` used for realm slugs. -/
def isRealmChar (c : Char) : Bool :=
  decide (('a' ≤ c ∧ c ≤ 'z') ∨ ('0' ≤ c ∧ c ≤ '9') ∨ c = '-')

/-- The regex class `\d` used for numeric character ids. -/
def isDigitChar (c : Char) : Bool := decide ('0' ≤ c ∧ c ≤ '9')

/-- ASCII whitespace removed by JS `trim`. -/
def isJsWhitespace (c : Char) : Bool :=
  decide (c.toNat = 32 ∨ (9 ≤ c.toNat ∧ c.toNat ≤ 13))

/-- JS `trim`: strip leading and trailing whitespace. -/
def trimStr (s : Str) : Str :=
  ((s.dropWhile isJsWhitespace).reverse.dropWhile isJsWhitespace).reverse

/-- JS `split(sep)` for a single-character separator. -/
def splitOnChar (sep : Char) : Str → List Str
  | [] => [[]]
  | c :: rest =>
    match splitOnChar sep rest with
    | [] => [[]]
    | s :: ss => if c = sep then [] :: s :: ss else (c :: s) :: ss

/-- The source's `pathname.split('/').filter(part => part !== '')`. -/
def pathSegments (path : Str) : List Str :=
  (splitOnChar '/' path).filter (fun p => !p.isEmpty)

/-- JS `String.includes`: substring containment. -/
def containsSub (hay needle : Str) : Bool :=
  if needle.isPrefixOf hay then true
  else
    match hay with
    | [] => false
    | _ :: t => containsSub t needle

/-- The `VALID_REGIONS` whitelist (lowercase two-letter codes). -/
def VALID_REGIONS : List Str :=
  [['u', 's'], ['e', 'u'], ['k', 'r'], ['t', 'w'], ['c', 'n']]

/-- Embedding of `normalizeRegion`: lowercase, check whitelist, uppercase.
Thrown errors are modeled as `none`. -/
def normalizeRegion (region : Str) : Option Str :=
  let normalized := region.map toLowerChar
  if normalized ∈ VALID_REGIONS then some (normalized.map toUpperChar) else none

/-- Embedding of `normalizeRealmSlug`: reject empty, lowercase + trim, then
require the regex `^[a-z0-9-]+$`. -/
def normalizeRealmSlug (realm : Str) : Option Str :=
  if trimStr realm = [] then none
  else
    let normalized := trimStr (realm.map toLowerChar)
    if normalized ≠ [] ∧ normalized.all isRealmChar then some normalized else none

/-- JS `charAt(0).toUpperCase() + slice(1).toLowerCase()`. -/
def capitalizeStr : Str → Str
  | [] => []
  | c :: rest => toUpperChar c :: rest.map toLowerChar

/-- Embedding of `normalizeCharacterName`: reject empty, trim, require
length 2..12 and the regex `^[a-zA-Z]+$`, then capitalize. -/
def normalizeCharacterName (name : Str) : Option Str :=
  if trimStr name = [] then none
  else
    let normalized := trimStr name
    if normalized.length < 2 ∨ 12 < normalized.length then none
    else if normalized ≠ [] ∧ normalized.all isAsciiLetter then
      some (capitalizeStr normalized)
    else none

/-- Result of the URL parser (the source also carries `originalUrl`, which
is just the trimmed input echoed back and is not part of the identity). -/
inductive ParsedWL where
  | slug (region realm characterName : Str)
  | id (characterId : Str)
deriving DecidableEq, Repr

/-- The substring `"warcraftlogs.com"` tested by the hostname check. -/
def wlDomain : Str := "warcraftlogs.com".toList

/-- The `"character"` path section. -/
def strCharacter : Str := "character".toList

/-- The `"id"` path marker. -/
def strId : Str := "id".toList

/-- Embedding of the body of `parseWarcraftLogsCharacterUrl` operating on
the hostname and non-empty path segments produced by `new URL` (hostnames
reaching this point are already lowercased by the URL constructor). -/
def parseFromParts (hostname : Str) (pathParts : List Str) : Option ParsedWL :=
  if ¬ (containsSub hostname wlDomain = true) then none
  else if pathParts.length < 2 then none
  else
    match pathParts with
    | sect :: secondPart :: rest =>
      if sect ≠ strCharacter then none
      else if secondPart = strId then
        match rest with
        | [] => none
        | thirdPart :: _ =>
          if thirdPart ≠ [] ∧ thirdPart.all isDigitChar then some (.id thirdPart)
          else none
      else
        if pathParts.length < 4 then none
        else
          match rest with
          | realm :: characterName :: _ =>
            match normalizeRegion secondPart, normalizeRealmSlug realm,
                normalizeCharacterName characterName with
            | some r, some rl, some n => some (.slug r rl n)
            | _, _, _ => none
          | _ => none
    | _ => none

/-- The scheme prefix `"https://"`. -/
def strHttps : Str := "https://".toList

/-- The prefix `"http"` tested before prepending a scheme. -/
def strHttp : Str := "http".toList

/-- Model of `new URL(s)` restricted to `https://host/path` URLs without
port, query, fragment or userinfo (all URLs this development feeds through
it have that shape): extract the hostname (lowercased, as the URL
constructor does) and the pathname. -/
def extractHostPath (s : Str) : Option (Str × Str) :=
  if strHttps.isPrefixOf s then
    let rest := s.drop 8
    some ((rest.takeWhile fun c => decide (c ≠ '/')).map toLowerChar,
      rest.dropWhile fun c => decide (c ≠ '/'))
  else none

/-- Embedding of `parseWarcraftLogsCharacterUrl` at the string level:
reject empty input, prepend `https://` when the input does not start with
`http`, then parse hostname and path segments. -/
def parseWarcraftLogsCharacterUrl (url : Str) : Option ParsedWL :=
  let trimmedUrl := trimStr url
  if trimmedUrl = [] then none
  else
    let urlToParse := if strHttp.isPrefixOf trimmedUrl then trimmedUrl
      else strHttps ++ trimmedUrl
    match extractHostPath urlToParse with
    | none => none
    | some (host, path) => parseFromParts host (pathSegments path)

/-- The URL template head `"https://www.warcraftlogs.com/character/"`,
split into scheme, hostname and path head. -/
def strHost : Str := "www.warcraftlogs.com".toList

/-- Embedding of `buildWarcraftLogsCharacterUrl`: normalize the three
components (errors modeled as `none`) and interpolate the template
`https://www.warcraftlogs.com/character/{region(lower)}/{realm}/{name(lower)}`. -/
def buildWarcraftLogsCharacterUrl (region realm characterName : Str) : Option Str :=
  match normalizeRegion region, normalizeRealmSlug realm,
      normalizeCharacterName characterName with
  | some nr, some nrl, some nn =>
    some (strHttps ++ strHost ++ ('/' :: strCharacter) ++
      ('/' :: nr.map toLowerChar) ++ ('/' :: nrl) ++ ('/' :: nn.map toLowerChar))
  | _, _, _ => none

/-! ## Character-level lemmas for the parser -/

/-- Characters with equal code points are equal. -/
theorem char_eq_of_toNat_eq {a b : Char} (h : a.toNat = b.toNat) : a = b :=
  Char.ext (UInt32.ext h)

/-- Code point of `Char.ofNat` on valid scalar values. -/
theorem char_toNat_ofNat (n : Nat) (h : n.isValidChar) : (Char.ofNat n).toNat = n := by
  simp [Char.ofNat, h, Char.toNat, Char.ofNatAux, UInt32.toNat]

/-- Uppercase ASCII range, in code points. -/
theorem upper_range_iff (c : Char) :
    ('A' ≤ c ∧ c ≤ 'Z') ↔ (65 ≤ c.toNat ∧ c.toNat ≤ 90) := by
  rw [Char.le_def, Char.le_def]
  exact Iff.rfl

/-- Lowercase ASCII range, in code points. -/
theorem lower_range_iff (c : Char) :
    ('a' ≤ c ∧ c ≤ 'z') ↔ (97 ≤ c.toNat ∧ c.toNat ≤ 122) := by
  rw [Char.le_def, Char.le_def]
  exact Iff.rfl

/-- Lowercasing an uppercase ASCII letter adds 32 to the code point. -/
theorem toLowerChar_toNat (c : Char) (h : 65 ≤ c.toNat ∧ c.toNat ≤ 90) :
    (toLowerChar c).toNat = c.toNat + 32 := by
  rw [toLowerChar, if_pos ((upper_range_iff c).mpr h)]
  exact char_toNat_ofNat _ (Or.inl (by omega))

/-- Lowercasing fixes everything outside the uppercase ASCII range. -/
theorem toLowerChar_eq_self (c : Char) (h : ¬(65 ≤ c.toNat ∧ c.toNat ≤ 90)) :
    toLowerChar c = c := by
  rw [toLowerChar, if_neg]
  exact fun hc => h ((upper_range_iff c).mp hc)

/-- Uppercasing a lowercase ASCII letter subtracts 32 from the code point. -/
theorem toUpperChar_toNat (c : Char) (h : 97 ≤ c.toNat ∧ c.toNat ≤ 122) :
    (toUpperChar c).toNat = c.toNat - 32 := by
  rw [toUpperChar, if_pos ((lower_range_iff c).mpr h)]
  exact char_toNat_ofNat _ (Or.inl (by omega))

/-- Uppercasing fixes everything outside the lowercase ASCII range. -/
theorem toUpperChar_eq_self (c : Char) (h : ¬(97 ≤ c.toNat ∧ c.toNat ≤ 122)) :
    toUpperChar c = c := by
  rw [toUpperChar, if_neg]
  exact fun hc => h ((lower_range_iff c).mp hc)

/-- Lowercasing is idempotent. -/
theorem toLowerChar_idem (c : Char) : toLowerChar (toLowerChar c) = toLowerChar c := by
  by_cases h : 65 ≤ c.toNat ∧ c.toNat ≤ 90
  · have h1 := toLowerChar_toNat c h
    exact toLowerChar_eq_self _ (by omega)
  · simp [toLowerChar_eq_self c h]

/-- The `[a-zA-Z]` test, in code points. -/
theorem isAsciiLetter_iff (c : Char) :
    isAsciiLetter c = true ↔
      ((97 ≤ c.toNat ∧ c.toNat ≤ 122) ∨ (65 ≤ c.toNat ∧ c.toNat ≤ 90)) := by
  rw [isAsciiLetter, decide_eq_true_eq, lower_range_iff, upper_range_iff]

/-- The `[a-z0-9-]` test, in code points. -/
theorem isRealmChar_iff (c : Char) :
    isRealmChar c = true ↔
      ((97 ≤ c.toNat ∧ c.toNat ≤ 122) ∨ (48 ≤ c.toNat ∧ c.toNat ≤ 57) ∨ c.toNat = 45) := by
  rw [isRealmChar, decide_eq_true_eq, lower_range_iff]
  constructor
  · rintro (h | h | h)
    · exact Or.inl h
    · exact Or.inr (Or.inl ⟨Char.le_def.mp h.1, Char.le_def.mp h.2⟩)
    · exact Or.inr (Or.inr (h ▸ rfl))
  · rintro (h | h | h)
    · exact Or.inl h
    · exact Or.inr (Or.inl ⟨Char.le_def.mpr h.1, Char.le_def.mpr h.2⟩)
    · exact Or.inr (Or.inr (char_eq_of_toNat_eq h))

/-- The `\d` test, in code points. -/
theorem isDigitChar_iff (c : Char) :
    isDigitChar c = true ↔ (48 ≤ c.toNat ∧ c.toNat ≤ 57) := by
  rw [isDigitChar, decide_eq_true_eq]
  exact ⟨fun h => ⟨Char.le_def.mp h.1, Char.le_def.mp h.2⟩,
    fun h => ⟨Char.le_def.mpr h.1, Char.le_def.mpr h.2⟩⟩

/-- The whitespace test, in code points. -/
theorem isJsWhitespace_iff (c : Char) :
    isJsWhitespace c = true ↔ (c.toNat = 32 ∨ (9 ≤ c.toNat ∧ c.toNat ≤ 13)) := by
  rw [isJsWhitespace, decide_eq_true_eq]

/-- Realm characters are already lowercase: `toLowerChar` fixes them. -/
theorem toLowerChar_of_realmChar (c : Char) (h : isRealmChar c = true) :
    toLowerChar c = c := by
  rcases (isRealmChar_iff c).mp h with h' | h' | h' <;> exact toLowerChar_eq_self c (by omega)

/-- Letters are preserved by lowercasing. -/
theorem isAsciiLetter_toLowerChar (c : Char) (h : isAsciiLetter c = true) :
    isAsciiLetter (toLowerChar c) = true := by
  rcases (isAsciiLetter_iff c).mp h with h' | h'
  · rw [toLowerChar_eq_self c (by omega)]; exact h
  · rw [isAsciiLetter_iff, toLowerChar_toNat c h']
    exact Or.inl (by omega)

/-- Letters are preserved by uppercasing. -/
theorem isAsciiLetter_toUpperChar (c : Char) (h : isAsciiLetter c = true) :
    isAsciiLetter (toUpperChar c) = true := by
  rcases (isAsciiLetter_iff c).mp h with h' | h'
  · rw [isAsciiLetter_iff, toUpperChar_toNat c h']
    exact Or.inr (by omega)
  · rw [toUpperChar_eq_self c (by omega)]; exact h

/-- Uppercasing is idempotent on letters (and on everything else). -/
theorem toUpperChar_idem (c : Char) : toUpperChar (toUpperChar c) = toUpperChar c := by
  by_cases h : 97 ≤ c.toNat ∧ c.toNat ≤ 122
  · have h1 := toUpperChar_toNat c h
    exact toUpperChar_eq_self _ (by omega)
  · simp [toUpperChar_eq_self c h]

/-- On letters, `upper ∘ lower ∘ upper = upper`. -/
theorem toUpper_toLower_toUpper (c : Char) (h : isAsciiLetter c = true) :
    toUpperChar (toLowerChar (toUpperChar c)) = toUpperChar c := by
  rcases (isAsciiLetter_iff c).mp h with h' | h'
  · have h1 := toUpperChar_toNat c h'
    have h2 : toLowerChar (toUpperChar c) = c := by
      have h3 := toLowerChar_toNat (toUpperChar c) (by omega)
      exact char_eq_of_toNat_eq (by omega)
    rw [h2]
  · have h1 : toUpperChar c = c := toUpperChar_eq_self c (by omega)
    rw [h1]
    have h2 := toLowerChar_toNat c h'
    have h3 := toUpperChar_toNat (toLowerChar c) (by omega)
    exact char_eq_of_toNat_eq (by omega)

/-- On letters, `lower ∘ upper = lower`. -/
theorem toLower_toUpper (c : Char) (h : isAsciiLetter c = true) :
    toLowerChar (toUpperChar c) = toLowerChar c := by
  rcases (isAsciiLetter_iff c).mp h with h' | h'
  · have h1 := toUpperChar_toNat c h'
    have h2 := toLowerChar_toNat (toUpperChar c) (by omega)
    have h3 : toLowerChar c = c := toLowerChar_eq_self c (by omega)
    rw [h3]
    exact char_eq_of_toNat_eq (by omega)
  · rw [toUpperChar_eq_self c (by omega)]

/-! ## List-level lemmas for the parser -/

/-- A map that fixes every element fixes the list. -/
theorem map_eq_self_of_fixes {α : Type} (f : α → α) :
    ∀ (l : List α), (∀ c ∈ l, f c = c) → l.map f = l := by
  intro l h
  induction l with
  | nil => rfl
  | cons c t ih =>
    rw [List.map_cons, h c (List.mem_cons_self c t),
      ih fun x hx => h x (List.mem_cons_of_mem c hx)]

/-- `dropWhile` fixes a list none of whose elements satisfy the predicate. -/
theorem dropWhile_eq_self_of_none {α : Type} (p : α → Bool) (l : List α)
    (h : ∀ c ∈ l, p c = false) : l.dropWhile p = l := by
  cases l with
  | nil => rfl
  | cons c t => simp [List.dropWhile_cons, h c (List.mem_cons_self c t)]

/-- `trimStr` fixes whitespace-free strings. -/
theorem trimStr_eq_self (s : Str) (h : ∀ c ∈ s, isJsWhitespace c = false) :
    trimStr s = s := by
  rw [trimStr, dropWhile_eq_self_of_none _ s h,
    dropWhile_eq_self_of_none _ s.reverse (fun c hc => h c (List.mem_reverse.mp hc)),
    List.reverse_reverse]

/-- `takeWhile` over an append whose left part satisfies the predicate. -/
theorem takeWhile_append_of_all {α : Type} (p : α → Bool) (a t : List α)
    (h : ∀ c ∈ a, p c = true) : (a ++ t).takeWhile p = a ++ t.takeWhile p := by
  induction a with
  | nil => rfl
  | cons c a' ih =>
    simp only [List.cons_append, List.takeWhile_cons, h c (List.mem_cons_self c a'),
      ih fun x hx => h x (List.mem_cons_of_mem c hx)]
    simp

/-- `dropWhile` over an append whose left part satisfies the predicate. -/
theorem dropWhile_append_of_all {α : Type} (p : α → Bool) (a t : List α)
    (h : ∀ c ∈ a, p c = true) : (a ++ t).dropWhile p = t.dropWhile p := by
  induction a with
  | nil => rfl
  | cons c a' ih =>
    simp only [List.cons_append, List.dropWhile_cons, h c (List.mem_cons_self c a'),
      if_true, ih fun x hx => h x (List.mem_cons_of_mem c hx)]

/-- `splitOnChar` never returns the empty list of tokens. -/
theorem splitOnChar_ne_nil (sep : Char) (s : Str) : splitOnChar sep s ≠ [] := by
  cases s with
  | nil => simp [splitOnChar]
  | cons c rest =>
    simp only [splitOnChar]
    cases h : splitOnChar sep rest with
    | nil => simp
    | cons s' ss => by_cases hc : c = sep <;> simp [hc]

/-- Splitting at a leading separator emits an empty token. -/
theorem splitOnChar_cons_sep (sep : Char) (t : Str) :
    splitOnChar sep (sep :: t) = [] :: splitOnChar sep t := by
  simp only [splitOnChar]
  cases h : splitOnChar sep t with
  | nil => exact absurd h (splitOnChar_ne_nil sep t)
  | cons s ss => simp

/-- Splitting an append whose left part is separator-free prepends that part
to the first token of the rest. -/
theorem splitOnChar_append_no_sep (sep : Char) (a t : Str)
    (h : ∀ c ∈ a, c ≠ sep) :
    splitOnChar sep (a ++ t) =
      (a ++ (splitOnChar sep t).headI) :: (splitOnChar sep t).tail := by
  induction a with
  | nil =>
    cases ht : splitOnChar sep t with
    | nil => exact absurd ht (splitOnChar_ne_nil sep t)
    | cons s ss => simp [ht]
  | cons c a' ih =>
    have ih' := ih fun x hx => h x (List.mem_cons_of_mem c hx)
    have hc : c ≠ sep := h c (List.mem_cons_self c a')
    simp only [List.cons_append, splitOnChar, List.append_eq, ih', if_neg hc]

/-- Splitting a separator-free string yields a single token. -/
theorem splitOnChar_no_sep (sep : Char) (a : Str) (h : ∀ c ∈ a, c ≠ sep) :
    splitOnChar sep a = [a] := by
  have := splitOnChar_append_no_sep sep a [] h
  simpa [splitOnChar] using this

/-! ## Normalization round-trip lemmas -/

/-- Realm characters are not whitespace. -/
theorem realmChar_not_ws (c : Char) (h : isRealmChar c = true) :
    isJsWhitespace c = false := by
  rw [← Bool.not_eq_true, isJsWhitespace_iff]
  rcases (isRealmChar_iff c).mp h with h' | h' | h' <;> omega

/-- Letters are not whitespace. -/
theorem letter_not_ws (c : Char) (h : isAsciiLetter c = true) :
    isJsWhitespace c = false := by
  rw [← Bool.not_eq_true, isJsWhitespace_iff]
  rcases (isAsciiLetter_iff c).mp h with h' | h' <;> omega

/-- Realm characters are not the path separator. -/
theorem realmChar_ne_slash (c : Char) (h : isRealmChar c = true) : c ≠ '/' := by
  intro hc
  subst hc
  revert h
  decide

/-- Letters are not the path separator. -/
theorem letter_ne_slash (c : Char) (h : isAsciiLetter c = true) : c ≠ '/' := by
  intro hc
  subst hc
  revert h
  decide

/-- Facts about the five region codes, checked by computation. -/
theorem region_code_facts :
    ∀ l ∈ VALID_REGIONS, l ≠ [] ∧ (∀ c ∈ l, isJsWhitespace c = false ∧ c ≠ '/') ∧
      l ≠ strId := by
  decide

/-- Successful region normalization round-trips: the output re-normalizes to
itself and its lowercasing is a whitelisted code that normalizes back to it. -/
theorem normalizeRegion_roundtrip (region r : Str)
    (h : normalizeRegion region = some r) :
    r.map toLowerChar ∈ VALID_REGIONS ∧
    normalizeRegion r = some r ∧
    normalizeRegion (r.map toLowerChar) = some r := by
  rw [normalizeRegion] at h
  by_cases hm : region.map toLowerChar ∈ VALID_REGIONS
  · rw [if_pos hm] at h
    have hr : r = (region.map toLowerChar).map toUpperChar := (Option.some_inj.mp h).symm
    simp only [VALID_REGIONS, List.mem_cons, List.not_mem_nil, or_false] at hm
    rcases hm with hm | hm | hm | hm | hm <;>
      · rw [hm] at hr
        subst hr
        refine ⟨by decide, by decide, by decide⟩
  · rw [if_neg hm] at h
    cases h

/-- Successful realm normalization: the output is a non-empty string of
realm characters and re-normalizes to itself. -/
theorem normalizeRealmSlug_roundtrip (realm rl : Str)
    (h : normalizeRealmSlug realm = some rl) :
    rl ≠ [] ∧ (∀ c ∈ rl, isRealmChar c = true) ∧ normalizeRealmSlug rl = some rl := by
  rw [normalizeRealmSlug] at h
  by_cases he : trimStr realm = []
  · rw [if_pos he] at h; cases h
  · rw [if_neg he] at h
    by_cases hc : trimStr (realm.map toLowerChar) ≠ [] ∧
        (trimStr (realm.map toLowerChar)).all isRealmChar
    · rw [if_pos hc] at h
      have hrl : rl = trimStr (realm.map toLowerChar) := (Option.some_inj.mp h).symm
      have hne : rl ≠ [] := hrl ▸ hc.1
      have hall : ∀ c ∈ rl, isRealmChar c = true :=
        fun c hcl => List.all_eq_true.mp (hrl ▸ hc.2) c hcl
      refine ⟨hne, hall, ?_⟩
      have htrim : trimStr rl = rl :=
        trimStr_eq_self rl fun c hcl => realmChar_not_ws c (hall c hcl)
      have hlower : rl.map toLowerChar = rl :=
        map_eq_self_of_fixes _ rl fun c hcl => toLowerChar_of_realmChar c (hall c hcl)
      rw [normalizeRealmSlug, if_neg (by rw [htrim]; exact hne)]
      rw [hlower, htrim, if_pos ⟨hne, List.all_eq_true.mpr hall⟩]
    · rw [if_neg hc] at h; cases h

/-- Successful character-name normalization: the output is 2..12 letters,
re-normalizes to itself, and its lowercasing normalizes back to it. -/
theorem normalizeCharacterName_roundtrip (name n : Str)
    (h : normalizeCharacterName name = some n) :
    (∀ c ∈ n, isAsciiLetter c = true) ∧ 2 ≤ n.length ∧ n.length ≤ 12 ∧
    normalizeCharacterName n = some n ∧
    normalizeCharacterName (n.map toLowerChar) = some n := by
  rw [normalizeCharacterName] at h
  by_cases he : trimStr name = []
  · rw [if_pos he] at h; cases h
  · rw [if_neg he] at h
    by_cases hlen : (trimStr name).length < 2 ∨ 12 < (trimStr name).length
    · rw [if_pos hlen] at h; cases h
    · rw [if_neg hlen] at h
      by_cases hlet : trimStr name ≠ [] ∧ (trimStr name).all isAsciiLetter
      · rw [if_pos hlet] at h
        have hn : n = capitalizeStr (trimStr name) := (Option.some_inj.mp h).symm
        obtain ⟨c, t, hct⟩ := List.exists_cons_of_ne_nil hlet.1
        have hmall : ∀ x ∈ trimStr name, isAsciiLetter x = true :=
          List.all_eq_true.mp hlet.2
        have hcl : isAsciiLetter c = true := hmall c (by rw [hct]; exact List.mem_cons_self c t)
        have htl : ∀ x ∈ t, isAsciiLetter x = true :=
          fun x hx => hmall x (by rw [hct]; exact List.mem_cons_of_mem c hx)
        have hcap : n = toUpperChar c :: t.map toLowerChar := by
          rw [hn, hct]; rfl
        have hnall : ∀ x ∈ n, isAsciiLetter x = true := by
          intro x hx
          rw [hcap] at hx
          rcases List.mem_cons.mp hx with hx | hx
          · exact hx ▸ isAsciiLetter_toUpperChar c hcl
          · obtain ⟨y, hy, hyx⟩ := List.mem_map.mp hx
            exact hyx ▸ isAsciiLetter_toLowerChar y (htl y hy)
        have hnlen : n.length = (trimStr name).length := by
          rw [hcap, hct]
          simp
        have hn2 : 2 ≤ n.length := by omega
        have hn12 : n.length ≤ 12 := by omega
        have hne : n ≠ [] := List.ne_nil_of_length_pos (by omega)
        have hmaplow : (t.map toLowerChar).map toLowerChar = t.map toLowerChar := by
          rw [List.map_map]
          exact List.map_congr_left fun x _ => toLowerChar_idem x
        have hcapn : capitalizeStr n = n := by
          rw [hcap]
          show toUpperChar (toUpperChar c) :: (t.map toLowerChar).map toLowerChar = _
          rw [toUpperChar_idem, hmaplow]
        have htn : trimStr n = n :=
          trimStr_eq_self n fun x hx => letter_not_ws x (hnall x hx)
        have conj4 : normalizeCharacterName n = some n := by
          rw [normalizeCharacterName, if_neg (by rw [htn]; exact hne)]
          simp only [htn]
          rw [if_neg (by omega), if_pos ⟨hne, List.all_eq_true.mpr hnall⟩, hcapn]
        have hnl : n.map toLowerChar = toLowerChar (toUpperChar c) :: t.map toLowerChar := by
          rw [hcap, List.map_cons, hmaplow]
        have hnlall : ∀ x ∈ n.map toLowerChar, isAsciiLetter x = true := by
          intro x hx
          obtain ⟨y, hy, hyx⟩ := List.mem_map.mp hx
          exact hyx ▸ isAsciiLetter_toLowerChar y (hnall y hy)
        have hnllen : (n.map toLowerChar).length = n.length := List.length_map n toLowerChar
        have hnlne : n.map toLowerChar ≠ [] := List.ne_nil_of_length_pos (by omega)
        have htnl : trimStr (n.map toLowerChar) = n.map toLowerChar :=
          trimStr_eq_self _ fun x hx => letter_not_ws x (hnlall x hx)
        have hcapnl : capitalizeStr (n.map toLowerChar) = n := by
          rw [hnl]
          show toUpperChar (toLowerChar (toUpperChar c)) :: (t.map toLowerChar).map toLowerChar = _
          rw [toUpper_toLower_toUpper c hcl, hmaplow, hcap]
        have conj5 : normalizeCharacterName (n.map toLowerChar) = some n := by
          rw [normalizeCharacterName, if_neg (by rw [htnl]; exact hnlne)]
          simp only [htnl]
          rw [if_neg (by omega), if_pos ⟨hnlne, List.all_eq_true.mpr hnlall⟩, hcapnl]
        exact ⟨hnall, hn2, hn12, conj4, conj5⟩
      · rw [if_neg hlet] at h; cases h

/-- Path segmentation of a built character path with separator-free
components. -/
theorem pathSegments_built (lr rl ln : Str)
    (hlrne : lr ≠ []) (hlrs : ∀ c ∈ lr, c ≠ '/')
    (hrlne : rl ≠ []) (hrls : ∀ c ∈ rl, c ≠ '/')
    (hlnne : ln ≠ []) (hlns : ∀ c ∈ ln, c ≠ '/') :
    pathSegments ('/' :: (strCharacter ++ ('/' :: (lr ++ ('/' :: (rl ++ ('/' :: ln))))))) =
      [strCharacter, lr, rl, ln] := by
  have hcs : ∀ c ∈ strCharacter, c ≠ '/' := by decide
  have h4 : splitOnChar '/' ln = [ln] := splitOnChar_no_sep '/' ln hlns
  have h3 : splitOnChar '/' (rl ++ ('/' :: ln)) = [rl, ln] := by
    rw [splitOnChar_append_no_sep '/' rl _ hrls, splitOnChar_cons_sep, h4]
    simp
  have h2 : splitOnChar '/' (lr ++ ('/' :: (rl ++ ('/' :: ln)))) = [lr, rl, ln] := by
    rw [splitOnChar_append_no_sep '/' lr _ hlrs, splitOnChar_cons_sep, h3]
    simp
  have h1 : splitOnChar '/'
      (strCharacter ++ ('/' :: (lr ++ ('/' :: (rl ++ ('/' :: ln)))))) =
      [strCharacter, lr, rl, ln] := by
    rw [splitOnChar_append_no_sep '/' strCharacter _ hcs, splitOnChar_cons_sep, h2]
    simp
  rw [pathSegments, splitOnChar_cons_sep, h1]
  simp [List.filter, List.isEmpty_eq_false.mpr hlrne, List.isEmpty_eq_false.mpr hrlne,
    List.isEmpty_eq_false.mpr hlnne, (by decide : strCharacter.isEmpty = false)]

/-- Parsing the URL built from already-normalized slug components recovers
exactly those components. -/
theorem parseUrl_of_normalized (r rl n : Str)
    (hrm : r.map toLowerChar ∈ VALID_REGIONS)
    (hrlow : normalizeRegion (r.map toLowerChar) = some r)
    (hrlne : rl ≠ []) (hrlall : ∀ c ∈ rl, isRealmChar c = true)
    (hrl : normalizeRealmSlug rl = some rl)
    (hnall : ∀ c ∈ n, isAsciiLetter c = true) (hn2 : 2 ≤ n.length)
    (hnlow : normalizeCharacterName (n.map toLowerChar) = some n) :
    parseWarcraftLogsCharacterUrl (strHttps ++ (strHost ++ ('/' :: (strCharacter ++
      ('/' :: (r.map toLowerChar ++ ('/' :: (rl ++ ('/' :: n.map toLowerChar))))))))) =
      some (.slug r rl n) := by
  obtain ⟨hlrne, hlrfacts, hlrid⟩ := region_code_facts _ hrm
  have hlrs : ∀ c ∈ r.map toLowerChar, c ≠ '/' := fun c hc => (hlrfacts c hc).2
  have hlrws : ∀ c ∈ r.map toLowerChar, isJsWhitespace c = false :=
    fun c hc => (hlrfacts c hc).1
  have hlnall : ∀ c ∈ n.map toLowerChar, isAsciiLetter c = true := by
    intro c hc
    obtain ⟨y, hy, hyc⟩ := List.mem_map.mp hc
    exact hyc ▸ isAsciiLetter_toLowerChar y (hnall y hy)
  have hlnne : n.map toLowerChar ≠ [] :=
    List.ne_nil_of_length_pos (by rw [List.length_map]; omega)
  have hrls : ∀ c ∈ rl, c ≠ '/' := fun c hc => realmChar_ne_slash c (hrlall c hc)
  have hrlws : ∀ c ∈ rl, isJsWhitespace c = false :=
    fun c hc => realmChar_not_ws c (hrlall c hc)
  have hlns : ∀ c ∈ n.map toLowerChar, c ≠ '/' :=
    fun c hc => letter_ne_slash c (hlnall c hc)
  have hlnws : ∀ c ∈ n.map toLowerChar, isJsWhitespace c = false :=
    fun c hc => letter_not_ws c (hlnall c hc)
  have hws : ∀ c ∈ strHttps ++ (strHost ++ ('/' :: (strCharacter ++
      ('/' :: (r.map toLowerChar ++ ('/' :: (rl ++ ('/' :: n.map toLowerChar)))))))),
      isJsWhitespace c = false :=
    List.forall_mem_append.mpr ⟨by decide, List.forall_mem_append.mpr ⟨by decide,
      List.forall_mem_cons.mpr ⟨by decide, List.forall_mem_append.mpr ⟨by decide,
        List.forall_mem_cons.mpr ⟨by decide, List.forall_mem_append.mpr ⟨hlrws,
          List.forall_mem_cons.mpr ⟨by decide, List.forall_mem_append.mpr ⟨hrlws,
            List.forall_mem_cons.mpr ⟨by decide, hlnws⟩⟩⟩⟩⟩⟩⟩⟩⟩
  have htrim := trimStr_eq_self _ hws
  have hne : strHttps ++ (strHost ++ ('/' :: (strCharacter ++
      ('/' :: (r.map toLowerChar ++ ('/' :: (rl ++ ('/' :: n.map toLowerChar)))))))) ≠ [] := by
    simp [strHttps]
  have hpre : strHttp.isPrefixOf (strHttps ++ (strHost ++ ('/' :: (strCharacter ++
      ('/' :: (r.map toLowerChar ++ ('/' :: (rl ++ ('/' :: n.map toLowerChar))))))))) = true :=
    List.isPrefixOf_iff_prefix.mpr
      ((by decide : strHttp <+: strHttps).trans (List.prefix_append _ _))
  have hpre2 : strHttps.isPrefixOf (strHttps ++ (strHost ++ ('/' :: (strCharacter ++
      ('/' :: (r.map toLowerChar ++ ('/' :: (rl ++ ('/' :: n.map toLowerChar))))))))) = true :=
    List.isPrefixOf_iff_prefix.mpr (List.prefix_append _ _)
  have hdrop : (strHttps ++ (strHost ++ ('/' :: (strCharacter ++
      ('/' :: (r.map toLowerChar ++ ('/' :: (rl ++ ('/' :: n.map toLowerChar))))))))).drop 8 =
      strHost ++ ('/' :: (strCharacter ++
      ('/' :: (r.map toLowerChar ++ ('/' :: (rl ++ ('/' :: n.map toLowerChar))))))) := by
    have h8 : strHttps.length = 8 := rfl
    rw [← h8]
    exact List.drop_left _ _
  have hhostslash : ∀ c ∈ strHost, (fun c => decide (c ≠ '/')) c = true := by decide
  have htake : ((strHost ++ ('/' :: (strCharacter ++
      ('/' :: (r.map toLowerChar ++ ('/' :: (rl ++ ('/' :: n.map toLowerChar)))))))).takeWhile
      fun c => decide (c ≠ '/')) = strHost := by
    rw [takeWhile_append_of_all _ strHost _ hhostslash]
    simp [List.takeWhile_cons]
  have hdropw : ((strHost ++ ('/' :: (strCharacter ++
      ('/' :: (r.map toLowerChar ++ ('/' :: (rl ++ ('/' :: n.map toLowerChar)))))))).dropWhile
      fun c => decide (c ≠ '/')) = '/' :: (strCharacter ++
      ('/' :: (r.map toLowerChar ++ ('/' :: (rl ++ ('/' :: n.map toLowerChar)))))) := by
    rw [dropWhile_append_of_all _ strHost _ hhostslash]
    simp [List.dropWhile_cons]
  have hhostlow : strHost.map toLowerChar = strHost := by decide
  have hsegs := pathSegments_built (r.map toLowerChar) rl (n.map toLowerChar)
    hlrne hlrs hrlne hrls hlnne hlns
  have hcont : containsSub strHost wlDomain = true := by decide
  simp only [parseWarcraftLogsCharacterUrl, htrim, if_neg hne, hpre, if_true,
    extractHostPath, hpre2, hdrop, htake, hdropw, hhostlow, hsegs, parseFromParts,
    hcont, not_true, if_false]
  rw [if_neg (by simp), if_neg (by simp), if_neg hlrid, if_neg (by simp), hrlow, hrl, hnlow]

/-- A successful slug parse factors through the three normalizers. -/
theorem parseFromParts_slug_inv (hostname : Str) (parts : List Str) (r rl n : Str)
    (h : parseFromParts hostname parts = some (.slug r rl n)) :
    ∃ region0 realm0 name0, normalizeRegion region0 = some r ∧
      normalizeRealmSlug realm0 = some rl ∧ normalizeCharacterName name0 = some n := by
  by_cases hct : containsSub hostname wlDomain = true
  · rcases parts with _ | ⟨sect, _ | ⟨second, rest⟩⟩
    · simp [parseFromParts, hct] at h
    · simp [parseFromParts, hct] at h
    · have hlen : ¬(sect :: second :: rest).length < 2 := by simp
      simp only [parseFromParts, hct, not_true, if_false, hlen] at h
      by_cases hsect : sect = strCharacter
      · subst hsect
        rw [if_neg (by simp)] at h
        by_cases hid : second = strId
        · rw [if_pos hid] at h
          rcases rest with _ | ⟨third, rest'⟩
          · cases h
          · by_cases hdig : third ≠ [] ∧ third.all isDigitChar
            · simp [hdig] at h
            · simp [hdig] at h
        · rw [if_neg hid] at h
          rcases rest with _ | ⟨realm0, _ | ⟨name0, rest2⟩⟩
          · rw [if_pos (by simp)] at h
            cases h
          · rw [if_pos (by simp)] at h
            cases h
          · rw [if_neg (by simp)] at h
            cases hre : normalizeRegion second with
            | none => simp [hre] at h
            | some r' =>
              cases hrlm : normalizeRealmSlug realm0 with
              | none => simp [hre, hrlm] at h
              | some rl' =>
                cases hnm : normalizeCharacterName name0 with
                | none => simp [hre, hrlm, hnm] at h
                | some n' =>
                  simp only [hre, hrlm, hnm, Option.some_inj] at h
                  obtain ⟨h1, h2, h3⟩ := ParsedWL.slug.inj h
                  exact ⟨second, realm0, name0, h1 ▸ hre, h2 ▸ hrlm, h3 ▸ hnm⟩
      · rw [if_pos hsect] at h
        cases h
  · simp [parseFromParts, hct] at h

/-- C4: for every valid slug-form URL (any hostname/path input whose parse
yields a slug identity), rebuilding the URL from the parsed
(region, realm, characterName) with `buildWarcraftLogsCharacterUrl` and
parsing again yields the identical triple: `buildUrl` is an exact inverse of
`parse` on the slug form and the round trip is idempotent. -/
theorem c4_parse_build_parse_roundtrip :
    ∀ (hostname : Str) (parts : List Str) (r rl n : Str),
      parseFromParts hostname parts = some (.slug r rl n) →
      ∃ u, buildWarcraftLogsCharacterUrl r rl n = some u ∧
        parseWarcraftLogsCharacterUrl u = some (.slug r rl n) := by
  intro hostname parts r rl n h
  obtain ⟨region0, realm0, name0, hre, hrlm, hnm⟩ :=
    parseFromParts_slug_inv hostname parts r rl n h
  obtain ⟨hrm, hrr, hrlow⟩ := normalizeRegion_roundtrip region0 r hre
  obtain ⟨hrlne, hrlall, hrlself⟩ := normalizeRealmSlug_roundtrip realm0 rl hrlm
  obtain ⟨hnall, hn2, hn12, hnself, hnlow⟩ := normalizeCharacterName_roundtrip name0 n hnm
  refine ⟨strHttps ++ strHost ++ ('/' :: strCharacter) ++ ('/' :: r.map toLowerChar) ++
    ('/' :: rl) ++ ('/' :: n.map toLowerChar), ?_, ?_⟩
  · simp only [buildWarcraftLogsCharacterUrl, hrr, hrlself, hnself]
  · rw [show strHttps ++ strHost ++ ('/' :: strCharacter) ++ ('/' :: r.map toLowerChar) ++
        ('/' :: rl) ++ ('/' :: n.map toLowerChar) =
        strHttps ++ (strHost ++ ('/' :: (strCharacter ++
          ('/' :: (r.map toLowerChar ++ ('/' :: (rl ++ ('/' :: n.map toLowerChar))))))))
      from by simp [List.append_assoc]]
    exact parseUrl_of_normalized r rl n hrm hrlow hrlne hrlall hrlself hnall hn2 hnlow

/-- Closed instance of `c4_parse_build_parse_roundtrip` at the spec's
concrete scenario URL. -/
theorem c4_parse_build_parse_roundtrip_witness :
    ∃ u, buildWarcraftLogsCharacterUrl "US".toList "area-52".toList "Testchar".toList = some u ∧
      parseWarcraftLogsCharacterUrl u =
        some (.slug "US".toList "area-52".toList "Testchar".toList) :=
  c4_parse_build_parse_roundtrip "www.warcraftlogs.com".toList
    ["character".toList, "us".toList, "area-52".toList, "testchar".toList]
    "US".toList "area-52".toList "Testchar".toList (by decide)

/-! ## Failure characterization of the parser (spec refinement) -/

/-- Lowercasing never introduces whitespace. -/
theorem toLowerChar_not_ws (c : Char) (h : isJsWhitespace c = false) :
    isJsWhitespace (toLowerChar c) = false := by
  by_cases hc : 65 ≤ c.toNat ∧ c.toNat ≤ 90
  · have h1 := toLowerChar_toNat c hc
    rw [← Bool.not_eq_true, isJsWhitespace_iff]
    omega
  · rw [toLowerChar_eq_self c hc]
    exact h

/-- Region normalization fails exactly off the whitelist. -/
theorem normalizeRegion_eq_none_iff (s : Str) :
    normalizeRegion s = none ↔ s.map toLowerChar ∉ VALID_REGIONS := by
  rw [normalizeRegion]
  by_cases h : s.map toLowerChar ∈ VALID_REGIONS <;> simp [h]

/-- Realm normalization of a non-empty whitespace-free segment fails exactly
when the lowercased segment leaves `[a-z0-9-]`. -/
theorem normalizeRealmSlug_eq_none_iff (s : Str) (hne : s ≠ [])
    (hws : ∀ c ∈ s, isJsWhitespace c = false) :
    normalizeRealmSlug s = none ↔ ¬ (s.map toLowerChar).all isRealmChar = true := by
  have htr : trimStr s = s := trimStr_eq_self s hws
  have hmws : ∀ c ∈ s.map toLowerChar, isJsWhitespace c = false := by
    intro c hc
    obtain ⟨y, hy, hyc⟩ := List.mem_map.mp hc
    exact hyc ▸ toLowerChar_not_ws y (hws y hy)
  have htrm : trimStr (s.map toLowerChar) = s.map toLowerChar := trimStr_eq_self _ hmws
  have hmne : s.map toLowerChar ≠ [] := by
    simpa using hne
  rw [normalizeRealmSlug, if_neg (by rw [htr]; exact hne)]
  simp only [htrm]
  by_cases hall : (s.map toLowerChar).all isRealmChar = true
  · rw [if_pos ⟨hmne, hall⟩]
    simp [hall]
  · rw [if_neg fun hcon => hall hcon.2]
    simp [hall]

/-- Name normalization of a non-empty whitespace-free segment fails exactly
when the length leaves 2..12 or a non-letter appears. -/
theorem normalizeCharacterName_eq_none_iff (s : Str) (hne : s ≠ [])
    (hws : ∀ c ∈ s, isJsWhitespace c = false) :
    normalizeCharacterName s = none ↔
      (s.length < 2 ∨ 12 < s.length ∨ ¬ s.all isAsciiLetter = true) := by
  have htr : trimStr s = s := trimStr_eq_self s hws
  rw [normalizeCharacterName, if_neg (by rw [htr]; exact hne)]
  simp only [htr]
  by_cases hlen : s.length < 2 ∨ 12 < s.length
  · rw [if_pos hlen]
    exact iff_of_true rfl (by tauto)
  · rw [if_neg hlen]
    by_cases hall : s.all isAsciiLetter = true
    · rw [if_pos ⟨hne, hall⟩]
      refine iff_of_false (by simp) ?_
      push_neg
      exact ⟨by omega, by omega, hall⟩
    · rw [if_neg fun hcon => hall hcon.2]
      exact iff_of_true rfl (by tauto)

/-- Spec reading of "the expected upstream domain (warcraftlogs.com)": the
domain itself or a subdomain of it. -/
def specIsExpectedDomain (hostname : Str) : Prop :=
  hostname = wlDomain ∨ ('.' :: wlDomain).isSuffixOf hostname = true

/-- The claim's list of rejection conditions, written from the spec's words,
with the hostname clause amended to what the code checks: the hostname does
not contain `warcraftlogs.com` as a substring. -/
def specRejects (hostname : Str) (parts : List Str) : Prop :=
  containsSub hostname wlDomain = false
  ∨ parts.head? ≠ some strCharacter
  ∨ (parts.head? = some strCharacter ∧ parts[1]? = some strId ∧
      ¬ ∃ t, parts[2]? = some t ∧ t ≠ [] ∧ t.all isDigitChar = true)
  ∨ (parts.head? = some strCharacter ∧ parts[1]? ≠ some strId ∧
      (parts.length < 4
       ∨ (∃ rg, parts[1]? = some rg ∧ rg.map toLowerChar ∉ VALID_REGIONS)
       ∨ (∃ rle, parts[2]? = some rle ∧ ¬ (rle.map toLowerChar).all isRealmChar = true)
       ∨ (∃ nm, parts[3]? = some nm ∧
           (nm.length < 2 ∨ 12 < nm.length ∨ ¬ nm.all isAsciiLetter = true))))

/-- C7 (amended): on non-empty whitespace-free path segments, the parse
fails exactly when one of the spec's listed conditions holds, with the
hostname condition being substring containment of `warcraftlogs.com`; on
every other input the parse succeeds. -/
theorem c7_parse_failure_characterization :
    ∀ (hostname : Str) (parts : List Str),
      (∀ s ∈ parts, s ≠ [] ∧ ∀ c ∈ s, isJsWhitespace c = false) →
      (parseFromParts hostname parts = none ↔ specRejects hostname parts) := by
  intro hostname parts hseg
  by_cases hct : containsSub hostname wlDomain = true
  · rcases parts with _ | ⟨sect, _ | ⟨second, rest⟩⟩
    · have hparse : parseFromParts hostname [] = none := by simp [parseFromParts, hct]
      rw [hparse]
      exact iff_of_true rfl (Or.inr (Or.inl (by simp)))
    · have hparse : parseFromParts hostname [sect] = none := by simp [parseFromParts, hct]
      rw [hparse]
      by_cases hsect : sect = strCharacter
      · subst hsect
        exact iff_of_true rfl
          (Or.inr (Or.inr (Or.inr ⟨rfl, by simp, Or.inl (by simp)⟩)))
      · exact iff_of_true rfl (Or.inr (Or.inl (by simp [hsect])))
    · have hlen2 : ¬(sect :: second :: rest).length < 2 := by simp
      by_cases hsect : sect = strCharacter
      · subst hsect
        by_cases hid : second = strId
        · subst hid
          rcases rest with _ | ⟨third, rest'⟩
          · have hparse : parseFromParts hostname [strCharacter, strId] = none := by
              simp [parseFromParts, hct]
            rw [hparse]
            refine iff_of_true rfl (Or.inr (Or.inr (Or.inl ⟨rfl, rfl, ?_⟩)))
            rintro ⟨t, ht, _⟩
            simp at ht
          · by_cases hdig : third ≠ [] ∧ third.all isDigitChar = true
            · have hparse : parseFromParts hostname
                  (strCharacter :: strId :: third :: rest') = some (.id third) := by
                simp [parseFromParts, hct, hdig]
              rw [hparse]
              refine iff_of_false (by simp) ?_
              rintro (hbad | hbad | hbad | hbad)
              · exact absurd hbad (by simp [hct])
              · exact hbad rfl
              · exact hbad.2.2 ⟨third, by simp, hdig.1, hdig.2⟩
              · exact hbad.2.1 (by simp)
            · have hparse : parseFromParts hostname
                  (strCharacter :: strId :: third :: rest') = none := by
                simp [parseFromParts, hct, hdig]
                intro hne3
                have hB : ¬ third.all isDigitChar = true := fun hb => hdig ⟨hne3, hb⟩
                rw [List.all_eq_true] at hB
                push_neg at hB
                obtain ⟨x, hx, hnx⟩ := hB
                exact ⟨x, hx, by simpa using hnx⟩
              rw [hparse]
              refine iff_of_true rfl (Or.inr (Or.inr (Or.inl ⟨rfl, rfl, ?_⟩)))
              rintro ⟨t, ht, htne, htall⟩
              simp at ht
              subst ht
              exact hdig ⟨htne, htall⟩
        · rcases rest with _ | ⟨realm0, _ | ⟨name0, rest2⟩⟩
          · have hparse : parseFromParts hostname [strCharacter, second] = none := by
              simp [parseFromParts, hct, hid]
            rw [hparse]
            exact iff_of_true rfl
              (Or.inr (Or.inr (Or.inr ⟨rfl, by simp [hid], Or.inl (by simp)⟩)))
          · have hparse : parseFromParts hostname [strCharacter, second, realm0] = none := by
              simp [parseFromParts, hct, hid]
            rw [hparse]
            exact iff_of_true rfl
              (Or.inr (Or.inr (Or.inr ⟨rfl, by simp [hid], Or.inl (by simp)⟩)))
          · obtain ⟨hrl_ne, hrl_ws⟩ := hseg realm0 (by simp)
            obtain ⟨hnm_ne, hnm_ws⟩ := hseg name0 (by simp)
            have hlen4 : ¬(strCharacter :: second :: realm0 :: name0 :: rest2).length < 4 := by
              simp
            have hparse_eq : parseFromParts hostname
                (strCharacter :: second :: realm0 :: name0 :: rest2) =
                match normalizeRegion second, normalizeRealmSlug realm0,
                    normalizeCharacterName name0 with
                | some r, some rl, some n => some (.slug r rl n)
                | _, _, _ => none := by
              simp [parseFromParts, hct, hid]
              rw [if_neg (by omega), if_neg (by omega)]
            rw [hparse_eq]
            have hd4 : specRejects hostname
                (strCharacter :: second :: realm0 :: name0 :: rest2) ↔
                (second.map toLowerChar ∉ VALID_REGIONS ∨
                 ¬ (realm0.map toLowerChar).all isRealmChar = true ∨
                 (name0.length < 2 ∨ 12 < name0.length ∨
                   ¬ name0.all isAsciiLetter = true)) := by
              simp [specRejects, hct, hid, hlen4]
            rw [hd4, ← normalizeRegion_eq_none_iff,
              ← normalizeRealmSlug_eq_none_iff realm0 hrl_ne hrl_ws,
              ← normalizeCharacterName_eq_none_iff name0 hnm_ne hnm_ws]
            cases normalizeRegion second with
            | none => simp
            | some r' =>
              cases normalizeRealmSlug realm0 with
              | none => simp
              | some rl' =>
                cases normalizeCharacterName name0 with
                | none => simp
                | some n' => simp
      · have hparse : parseFromParts hostname (sect :: second :: rest) = none := by
          simp only [parseFromParts, hct, not_true, if_false, hlen2]
          simp [hsect]
        rw [hparse]
        exact iff_of_true rfl (Or.inr (Or.inl (by simp [hsect])))
  · have hparse : parseFromParts hostname parts = none := by simp [parseFromParts, hct]
    rw [hparse]
    exact iff_of_true rfl (Or.inl (by simpa using hct))

/-- Closed instance of `c7_parse_failure_characterization`: an invalid
region makes the parse fail, and the spec condition list agrees. -/
theorem c7_parse_failure_characterization_witness :
    parseFromParts "www.warcraftlogs.com".toList
      ["character".toList, "xx".toList, "area-52".toList, "testchar".toList] = none ↔
    specRejects "www.warcraftlogs.com".toList
      ["character".toList, "xx".toList, "area-52".toList, "testchar".toList] :=
  c7_parse_failure_characterization "www.warcraftlogs.com".toList
    ["character".toList, "xx".toList, "area-52".toList, "testchar".toList] (by decide)

/-- Counterexample to C7 as stated: the hostname `xwarcraftlogs.com` is not
the expected upstream domain (neither `warcraftlogs.com` nor a subdomain of
it), so the claim's condition list says the parse must fail; yet the code's
substring containment check accepts it and the parse succeeds. -/
theorem c7_hostname_claim_counterexample :
    ¬ specIsExpectedDomain "xwarcraftlogs.com".toList ∧
    parseFromParts "xwarcraftlogs.com".toList
      ["character".toList, "us".toList, "area-52".toList, "testchar".toList] =
      some (.slug "US".toList "area-52".toList "Testchar".toList) := by
  constructor
  · intro h
    rcases h with h | h <;> revert h <;> decide
  · decide

/-! ## Upstream response normalization (src/lib/warcraft-logs-client.ts,
`parseWarcraftLogsResponse`) -/

/-- The `encounter` sub-object of a ranking entry. -/
structure WLEncounterRef where
  name : String
deriving DecidableEq, Repr

/-- One raw per-zone ranking entry as read by the normalizer (absent JSON
fields are `none`). -/
structure WLRanking where
  spec : Option String
  rankPercent : Option ℚ
  encounter : Option WLEncounterRef
  encounterName : Option String
  difficulty : Option Int
  killDate : Option Int
deriving DecidableEq, Repr

/-- One value of the `zoneRankings` object (contributes only through its
`rankings` array when present). -/
structure WLZoneData where
  rankings : Option (List WLRanking)
deriving DecidableEq, Repr

/-- The character payload consumed by `parseWarcraftLogsResponse`. The
region slug is kept as a character list because the source uppercases it. -/
structure WLCharacter where
  id : Option Int
  name : String
  serverName : String
  regionSlug : Str
  classID : Int
  zoneRankings : List WLZoneData
deriving DecidableEq, Repr

/-- Best-kill record of the normalized output. -/
structure WLBestKillOut where
  encounterName : String
  difficulty : String
  killDate : Option Int
  rankPercent : ℚ
deriving DecidableEq, Repr

/-- Normalized output of `parseWarcraftLogsResponse`. `characterId` keeps
the numeric id (the source stringifies it). -/
structure ParsedWLData where
  characterId : Option Int
  characterName : String
  realm : String
  region : Str
  «class» : String
  spec : Option String
  mostPlayedSpec : Option String
  bestKillLatestSeason : Option WLBestKillOut
  classSpec : Option String
  avatarUrl : Option String
deriving DecidableEq, Repr

/-- The source's `allRankings` accumulation over `Object.values(zoneRankings)`. -/
def flattenRankings (zr : List WLZoneData) : List WLRanking :=
  zr.foldl (fun acc z => match z.rankings with | some rs => acc ++ rs | none => acc) []

/-- JS `Map.set`-with-increment: bump an existing key in place, else append. -/
def insertIncr (acc : List (String × Nat)) (s : String) : List (String × Nat) :=
  match acc with
  | [] => [(s, 1)]
  | (k, v) :: rest => if k = s then (k, v + 1) :: rest else (k, v) :: insertIncr rest s

/-- The `specCounts` loop: count each truthy `ranking.spec`. -/
def buildSpecCounts (acc : List (String × Nat)) : List WLRanking → List (String × Nat)
  | [] => acc
  | r :: rest =>
    match r.spec with
    | some s =>
      if s ≠ "" then buildSpecCounts (insertIncr acc s) rest
      else buildSpecCounts acc rest
    | none => buildSpecCounts acc rest

/-- The `specCounts.forEach` scan: first key with a strictly greater count
than the running maximum wins. -/
def scanMostPlayed (best : Option String) (maxCount : Nat) :
    List (String × Nat) → Option String
  | [] => best
  | (s, c) :: rest =>
    if c > maxCount then scanMostPlayed (some s) c rest
    else scanMostPlayed best maxCount rest

/-- The source's most-played-spec computation. -/
def mostPlayedSpecOf (rs : List WLRanking) : Option String :=
  scanMostPlayed none 0 (buildSpecCounts [] rs)

/-- The best-kill scan: keep the first entry whose truthy `rankPercent`
strictly exceeds the running best (JS reads `bestKill.rankPercent` as a
number; the stored best always has one, so `getD 0` is never exercised). -/
def scanBestKill (best : Option WLRanking) : List WLRanking → Option WLRanking
  | [] => best
  | r :: rest =>
    match r.rankPercent with
    | none => scanBestKill best rest
    | some rp =>
      match best with
      | none => if rp ≠ 0 then scanBestKill (some r) rest else scanBestKill none rest
      | some b =>
        if rp ≠ 0 ∧ rp > b.rankPercent.getD 0 then scanBestKill (some r) rest
        else scanBestKill (some b) rest

/-- The client's local `difficultyMap` with the `|| 'Unknown'` fallback. -/
def wlDifficultyName (d : Option Int) : String :=
  match d with
  | none => "Unknown"
  | some v =>
    if v = 3 then "Normal"
    else if v = 4 then "Heroic"
    else if v = 5 then "Mythic"
    else "Unknown"

/-- JS `x || y` on an optional string against a string default. -/
def jsOrStr (x : Option String) (y : String) : String :=
  match x with
  | some s => if s = "" then y else s
  | none => y

/-- The best-kill output record built from the selected ranking entry
(`Math.round(rp * 100) / 100`; ISO date conversion modeled as identity). -/
def buildBestKillOut (b : WLRanking) : WLBestKillOut :=
  { encounterName := jsOrStr (b.encounter.map WLEncounterRef.name)
      (jsOrStr b.encounterName "Unknown")
    difficulty := wlDifficultyName b.difficulty
    killDate := b.killDate
    rankPercent := ((round ((b.rankPercent.getD 0) * 100) : ℤ) : ℚ) / 100 }

/-- Embedding of `parseWarcraftLogsResponse` (warcraft-logs-client.ts lines
237-314). -/
def parseWarcraftLogsResponse (character : WLCharacter) : ParsedWLData :=
  let className := getWCLClassName character.classID
  let allRankings := flattenRankings character.zoneRankings
  let mostPlayedSpec := mostPlayedSpecOf allRankings
  let bestKill := scanBestKill none allRankings
  { characterId := character.id
    characterName := character.name
    realm := character.serverName
    region := character.regionSlug.map toUpperChar
    «class» := className
    spec := mostPlayedSpec
    mostPlayedSpec := mostPlayedSpec
    bestKillLatestSeason := bestKill.map buildBestKillOut
    classSpec := some (match mostPlayedSpec with
      | some s => className ++ " " ++ s
      | none => className)
    avatarUrl := none }

/-- The truthy spec occurrences, in order. -/
def truthySpecs (rs : List WLRanking) : List String :=
  rs.filterMap fun r =>
    match r.spec with
    | some s => if s = "" then none else some s
    | none => none

/-- First-occurrence deduplication (insertion order of the JS `Map`). -/
def firstDedup : List String → List String
  | [] => []
  | s :: rest => s :: firstDedup (rest.filter fun x => x ≠ s)
termination_by l => l.length
decreasing_by
  simp only [List.length_cons]
  exact Nat.lt_succ_of_le (List.length_filter_le _ _)

/-- Count held for a key in the association-list model of the JS `Map`. -/
def lkCount (acc : List (String × Nat)) (k : String) : Nat :=
  ((acc.find? fun p => p.1 = k).map Prod.snd).getD 0

/-- `buildSpecCounts` is the fold of `insertIncr` over the truthy specs. -/
theorem buildSpecCounts_eq_foldl (rs : List WLRanking) :
    ∀ acc, buildSpecCounts acc rs = (truthySpecs rs).foldl insertIncr acc := by
  induction rs with
  | nil => intro acc; rfl
  | cons r rest ih =>
    intro acc
    cases hs : r.spec with
    | none => simp [buildSpecCounts, truthySpecs, hs, ih, List.filterMap_cons]
    | some s =>
      by_cases hse : s = ""
      · simp [buildSpecCounts, truthySpecs, hs, hse, ih, List.filterMap_cons]
      · simp only [buildSpecCounts, truthySpecs, hs, List.filterMap_cons, if_neg hse, ih]
        simp [truthySpecs, hse]

/-- Lookup after one `insertIncr`. -/
theorem lkCount_insertIncr (acc : List (String × Nat)) (s k : String) :
    lkCount (insertIncr acc s) k = if k = s then lkCount acc k + 1 else lkCount acc k := by
  induction acc with
  | nil =>
    by_cases hk : k = s
    · subst hk; simp [insertIncr, lkCount]
    · simp [insertIncr, lkCount, hk, Ne.symm hk]
  | cons p rest ih =>
    obtain ⟨k0, v0⟩ := p
    by_cases h0 : k0 = s
    · subst h0
      by_cases hk : k = k0
      · subst hk; simp [insertIncr, lkCount]
      · simp [insertIncr, lkCount, hk, Ne.symm hk]
    · by_cases hk : k = k0
      · subst hk
        simp [insertIncr, lkCount, h0]
      · have hstep : ∀ l, lkCount ((k0, v0) :: l) k = lkCount l k := by
          intro l
          simp [lkCount, List.find?, Ne.symm hk]
        simp only [insertIncr, if_neg h0]
        rw [hstep (insertIncr rest s), ih, hstep rest]

/-- Lookup after the whole fold: initial count plus occurrences. -/
theorem lkCount_foldl (ts : List String) :
    ∀ acc k, lkCount (ts.foldl insertIncr acc) k = lkCount acc k + ts.count k := by
  induction ts with
  | nil => intro acc k; simp
  | cons s rest ih =>
    intro acc k
    rw [List.foldl_cons, ih, lkCount_insertIncr]
    by_cases hk : k = s
    · subst hk
      simp [List.count_cons]
      omega
    · simp [List.count_cons, hk, fun h : s = k => hk h.symm]

/-- Keys after one `insertIncr`: bump in place or append. -/
theorem insertIncr_keys (acc : List (String × Nat)) (s : String) :
    (insertIncr acc s).map Prod.fst =
      if s ∈ acc.map Prod.fst then acc.map Prod.fst else acc.map Prod.fst ++ [s] := by
  induction acc with
  | nil => simp [insertIncr]
  | cons p rest ih =>
    obtain ⟨k0, v0⟩ := p
    by_cases h0 : k0 = s
    · subst h0
      have hmem : k0 ∈ ((k0, v0) :: rest).map Prod.fst := by simp
      simp [insertIncr, hmem]
    · simp only [insertIncr, if_neg h0, List.map_cons, ih]
      by_cases hs : s ∈ rest.map Prod.fst
      · have hmem : s ∈ ((k0, v0) :: rest).map Prod.fst := by simp [hs]
        simp [hs, hmem]
      · have hmem : s ∉ ((k0, v0) :: rest).map Prod.fst := by
          simp [hs, Ne.symm h0]
        simp [hs, hmem, Ne.symm h0]

/-- Keys after the whole fold: existing keys, then the new specs in
first-occurrence order. -/
theorem foldl_insertIncr_keys (ts : List String) :
    ∀ acc, (ts.foldl insertIncr acc).map Prod.fst =
      acc.map Prod.fst ++
        firstDedup (ts.filter fun x => decide (x ∉ acc.map Prod.fst)) := by
  induction ts with
  | nil => intro acc; simp [firstDedup]
  | cons s rest ih =>
    intro acc
    rw [List.foldl_cons, ih, insertIncr_keys]
    by_cases hs : s ∈ acc.map Prod.fst
    · rw [if_pos hs]
      have hfil : (s :: rest).filter (fun x => decide (x ∉ acc.map Prod.fst)) =
          rest.filter (fun x => decide (x ∉ acc.map Prod.fst)) := by
        simp [List.filter_cons, hs]
      rw [hfil]
    · rw [if_neg hs, List.append_assoc]
      have hfil : (s :: rest).filter (fun x => decide (x ∉ acc.map Prod.fst)) =
          s :: rest.filter (fun x => decide (x ∉ acc.map Prod.fst)) := by
        simp [List.filter_cons, hs]
      rw [hfil]
      congr 1
      have hfd : firstDedup (s :: rest.filter fun x => decide (x ∉ acc.map Prod.fst)) =
          s :: firstDedup ((rest.filter fun x => decide (x ∉ acc.map Prod.fst)).filter
            fun x => decide (x ≠ s)) := by
        simp only [firstDedup]
      rw [hfd, List.singleton_append]
      congr 1
      apply congrArg firstDedup
      rw [List.filter_filter]
      apply List.filter_congr
      intro x _
      by_cases hx1 : x ∈ acc.map Prod.fst
      · simp [hx1]
      · by_cases hx2 : x = s
        · simp [hx1, hx2]
        · simp [hx1, hx2]

/-- `firstDedup` preserves membership. -/
theorem mem_firstDedup (l : List String) : ∀ x, x ∈ firstDedup l ↔ x ∈ l := by
  induction l using firstDedup.induct with
  | case1 => simp [firstDedup]
  | case2 s rest ih =>
    intro x
    by_cases hxs : x = s
    · simp [firstDedup, hxs]
    · have hx := ih x
      simp [List.mem_filter, hxs] at hx
      simp [firstDedup, hxs]
      exact hx

/-- `firstDedup` has no duplicates. -/
theorem firstDedup_nodup (l : List String) : (firstDedup l).Nodup := by
  induction l using firstDedup.induct with
  | case1 => simp [firstDedup]
  | case2 s rest ih =>
    have hfd : firstDedup (s :: rest) =
        s :: firstDedup (rest.filter fun x => decide (x ≠ s)) := by
      simp only [firstDedup]
    rw [hfd, List.nodup_cons]
    refine ⟨?_, ih⟩
    intro hmem
    have := (mem_firstDedup _ s).mp hmem
    simp [List.mem_filter] at this

/-- With distinct keys, the entry at a position gives the lookup value. -/
theorem lkCount_of_getElem (acc : List (String × Nat)) :
    (acc.map Prod.fst).Nodup →
      ∀ (j : Nat) (s : String) (c : Nat), acc[j]? = some (s, c) → lkCount acc s = c := by
  induction acc with
  | nil => intro _ j s c h; simp at h
  | cons p rest ih =>
    obtain ⟨k0, v0⟩ := p
    intro hnd j s c h
    have hnd2 : (k0 :: rest.map Prod.fst).Nodup := by
      rw [List.map_cons] at hnd
      exact hnd
    have hnd' := List.nodup_cons.mp hnd2
    cases j with
    | zero =>
      simp at h
      obtain ⟨h1, h2⟩ := h
      subst h1
      subst h2
      simp [lkCount, List.find?]
    | succ j' =>
      have hj : rest[j']? = some (s, c) := by simpa using h
      have hs : s ∈ rest.map Prod.fst :=
        List.mem_map.mpr ⟨(s, c), List.getElem?_mem hj, rfl⟩
      have hk0 : ¬k0 = s := fun he => hnd'.1 (he ▸ hs)
      rw [show lkCount ((k0, v0) :: rest) s = lkCount rest s from by
        simp [lkCount, List.find?, hk0]]
      exact ih hnd'.2 j' s c hj

/-- Characterization of the `specCounts.forEach` maximum scan. -/
theorem scanMostPlayed_go (entries : List (String × Nat)) :
    ∀ (best : Option String) (maxC : Nat),
      (scanMostPlayed best maxC entries = none ↔
        best = none ∧ ∀ p ∈ entries, p.2 ≤ maxC) ∧
      (∀ s, scanMostPlayed best maxC entries = some s →
        (best = some s ∧ ∀ p ∈ entries, p.2 ≤ maxC) ∨
        (∃ i c, entries[i]? = some (s, c) ∧ maxC < c ∧
          (∀ p ∈ entries, p.2 ≤ c) ∧
          (∀ (j : Nat) (p : String × Nat), j < i → entries[j]? = some p → p.2 < c))) := by
  induction entries with
  | nil =>
    intro best maxC
    constructor
    · simp [scanMostPlayed]
    · intro s h
      exact Or.inl ⟨h, by simp⟩
  | cons e rest ih =>
    obtain ⟨s0, c0⟩ := e
    intro best maxC
    by_cases hc : c0 > maxC
    · have hstep : scanMostPlayed best maxC ((s0, c0) :: rest) =
          scanMostPlayed (some s0) c0 rest := by
        simp [scanMostPlayed, hc]
      constructor
      · rw [hstep, (ih (some s0) c0).1]
        constructor
        · rintro ⟨h1, _⟩; cases h1
        · rintro ⟨_, h2⟩
          exact absurd (h2 (s0, c0) (List.mem_cons_self _ _)) (by simpa using hc)
      · intro s h
        rw [hstep] at h
        rcases (ih (some s0) c0).2 s h with ⟨h1, h2⟩ | ⟨i, c, h1, h2, h3, h4⟩
        · obtain rfl : s0 = s := Option.some_inj.mp h1
          refine Or.inr ⟨0, c0, by simp, hc, ?_, ?_⟩
          · intro p hp
            rcases List.mem_cons.mp hp with hp | hp
            · rw [hp]
            · exact h2 p hp
          · intro j p hj _
            omega
        · refine Or.inr ⟨i + 1, c, by simpa using h1, by omega, ?_, ?_⟩
          · intro p hp
            rcases List.mem_cons.mp hp with hp | hp
            · rw [hp]; exact le_of_lt h2
            · exact h3 p hp
          · intro j p hj hp
            cases j with
            | zero =>
              simp at hp
              rw [← hp]
              exact h2
            | succ j' => exact h4 j' p (by omega) (by simpa using hp)
    · have hstep : scanMostPlayed best maxC ((s0, c0) :: rest) =
          scanMostPlayed best maxC rest := by
        simp [scanMostPlayed, hc]
      constructor
      · rw [hstep, (ih best maxC).1]
        constructor
        · rintro ⟨h1, h2⟩
          refine ⟨h1, ?_⟩
          intro p hp
          rcases List.mem_cons.mp hp with hp | hp
          · rw [hp]; omega
          · exact h2 p hp
        · rintro ⟨h1, h2⟩
          exact ⟨h1, fun p hp => h2 p (List.mem_cons_of_mem _ hp)⟩
      · intro s h
        rw [hstep] at h
        rcases (ih best maxC).2 s h with ⟨h1, h2⟩ | ⟨i, c, h1, h2, h3, h4⟩
        · refine Or.inl ⟨h1, ?_⟩
          intro p hp
          rcases List.mem_cons.mp hp with hp | hp
          · rw [hp]; omega
          · exact h2 p hp
        · refine Or.inr ⟨i + 1, c, by simpa using h1, h2, ?_, ?_⟩
          · intro p hp
            rcases List.mem_cons.mp hp with hp | hp
            · rw [hp]; omega
            · exact h3 p hp
          · intro j p hj hp
            cases j with
            | zero =>
              simp at hp
              rw [← hp]
              simp only
              omega
            | succ j' => exact h4 j' p (by omega) (by simpa using hp)

/-- Characterization of the best-kill scan: the selected entry has the
truthy maximum rank percent, first occurrence winning ties. -/
theorem scanBestKill_go (rs : List WLRanking) :
    ∀ (best : Option WLRanking),
      (scanBestKill best rs = none ↔ best = none ∧
        ∀ r ∈ rs, ∀ rp, r.rankPercent = some rp → rp = 0) ∧
      (∀ b, scanBestKill best rs = some b →
        (best = some b ∧ ∀ r ∈ rs, ∀ rp, r.rankPercent = some rp → rp ≠ 0 →
          rp ≤ b.rankPercent.getD 0) ∨
        (∃ (i : Nat) (rp : ℚ), rs[i]? = some b ∧ b.rankPercent = some rp ∧ rp ≠ 0 ∧
          (∀ d0, best = some d0 → d0.rankPercent.getD 0 < rp) ∧
          (∀ r ∈ rs, ∀ rp', r.rankPercent = some rp' → rp' ≠ 0 → rp' ≤ rp) ∧
          (∀ (j : Nat) (r' : WLRanking), j < i → rs[j]? = some r' →
            ∀ rp', r'.rankPercent = some rp' → rp' ≠ 0 → rp' < rp))) := by
  induction rs with
  | nil =>
    intro best
    constructor
    · simp [scanBestKill]
    · intro b h
      exact Or.inl ⟨h, by simp⟩
  | cons r0 rest ih =>
    intro best
    cases hrp : r0.rankPercent with
    | none =>
      have hstep : scanBestKill best (r0 :: rest) = scanBestKill best rest := by
        cases best <;> simp [scanBestKill, hrp]
      constructor
      · rw [hstep, (ih best).1]
        constructor
        · rintro ⟨h1, h2⟩
          refine ⟨h1, ?_⟩
          intro r hr rp h
          rcases List.mem_cons.mp hr with hr | hr
          · rw [hr] at h; rw [hrp] at h; cases h
          · exact h2 r hr rp h
        · rintro ⟨h1, h2⟩
          exact ⟨h1, fun r hr rp h => h2 r (List.mem_cons_of_mem _ hr) rp h⟩
      · intro b h
        rw [hstep] at h
        rcases (ih best).2 b h with ⟨h1, h2⟩ | ⟨i, rp, h1, h2, h3, h4, h5, h6⟩
        · refine Or.inl ⟨h1, ?_⟩
          intro r hr rp hrp' hne
          rcases List.mem_cons.mp hr with hr | hr
          · rw [hr] at hrp'; rw [hrp] at hrp'; cases hrp'
          · exact h2 r hr rp hrp' hne
        · refine Or.inr ⟨i + 1, rp, by simpa using h1, h2, h3, h4, ?_, ?_⟩
          · intro r hr rp' hrp' hne
            rcases List.mem_cons.mp hr with hr | hr
            · rw [hr] at hrp'; rw [hrp] at hrp'; cases hrp'
            · exact h5 r hr rp' hrp' hne
          · intro j r' hj hr' rp' hrp' hne
            cases j with
            | zero =>
              simp at hr'
              rw [← hr'] at hrp'
              rw [hrp] at hrp'
              cases hrp'
            | succ j' => exact h6 j' r' (by omega) (by simpa using hr') rp' hrp' hne
    | some rp0 =>
      cases best with
      | none =>
        by_cases h0 : rp0 ≠ 0
        · have hstep : scanBestKill none (r0 :: rest) = scanBestKill (some r0) rest := by
            simp [scanBestKill, hrp, h0]
          constructor
          · rw [hstep, (ih (some r0)).1]
            constructor
            · rintro ⟨h1, _⟩; cases h1
            · rintro ⟨_, h2⟩
              exact absurd (h2 r0 (List.mem_cons_self _ _) rp0 hrp) h0
          · intro b h
            rw [hstep] at h
            rcases (ih (some r0)).2 b h with ⟨h1, h2⟩ | ⟨i, rp, h1, h2, h3, h4, h5, h6⟩
            · obtain rfl : r0 = b := Option.some_inj.mp h1
              refine Or.inr ⟨0, rp0, by simp, hrp, h0, by simp, ?_, by omega⟩
              intro r hr rp' hrp' hne
              rcases List.mem_cons.mp hr with hr | hr
              · rw [hr] at hrp'; rw [hrp] at hrp'
                cases hrp'
                simp [hrp]
              · have := h2 r hr rp' hrp' hne
                rw [hrp] at this
                simpa using this
            · refine Or.inr ⟨i + 1, rp, by simpa using h1, h2, h3, by simp, ?_, ?_⟩
              · intro r hr rp' hrp' hne
                rcases List.mem_cons.mp hr with hr | hr
                · have hlt := h4 r0 rfl
                  rw [hrp] at hlt
                  simp at hlt
                  rw [hr] at hrp'
                  rw [hrp] at hrp'
                  cases hrp'
                  exact le_of_lt hlt
                · exact h5 r hr rp' hrp' hne
              · intro j r' hj hr' rp' hrp' hne
                cases j with
                | zero =>
                  simp at hr'
                  have hlt := h4 r0 rfl
                  rw [hrp] at hlt
                  simp at hlt
                  rw [← hr'] at hrp'
                  rw [hrp] at hrp'
                  cases hrp'
                  exact hlt
                | succ j' => exact h6 j' r' (by omega) (by simpa using hr') rp' hrp' hne
        · have hz : rp0 = 0 := by push_neg at h0; exact h0
          have hstep : scanBestKill none (r0 :: rest) = scanBestKill none rest := by
            simp [scanBestKill, hrp, h0]
          constructor
          · rw [hstep, (ih none).1]
            constructor
            · rintro ⟨h1, h2⟩
              refine ⟨h1, ?_⟩
              intro r hr rp h
              rcases List.mem_cons.mp hr with hr | hr
              · rw [hr] at h; rw [hrp] at h; cases h; exact hz
              · exact h2 r hr rp h
            · rintro ⟨h1, h2⟩
              exact ⟨h1, fun r hr rp h => h2 r (List.mem_cons_of_mem _ hr) rp h⟩
          · intro b h
            rw [hstep] at h
            rcases (ih none).2 b h with ⟨h1, _⟩ | ⟨i, rp, h1, h2, h3, h4, h5, h6⟩
            · cases h1
            · refine Or.inr ⟨i + 1, rp, by simpa using h1, h2, h3, by simp, ?_, ?_⟩
              · intro r hr rp' hrp' hne
                rcases List.mem_cons.mp hr with hr | hr
                · rw [hr] at hrp'; rw [hrp] at hrp'; cases hrp'
                  exact absurd hz hne
                · exact h5 r hr rp' hrp' hne
              · intro j r' hj hr' rp' hrp' hne
                cases j with
                | zero =>
                  simp at hr'
                  rw [← hr'] at hrp'
                  rw [hrp] at hrp'
                  cases hrp'
                  exact absurd hz hne
                | succ j' => exact h6 j' r' (by omega) (by simpa using hr') rp' hrp' hne
      | some b0 =>
        by_cases hcond : rp0 ≠ 0 ∧ rp0 > b0.rankPercent.getD 0
        · have hstep : scanBestKill (some b0) (r0 :: rest) = scanBestKill (some r0) rest := by
            simp [scanBestKill, hrp, hcond]
          constructor
          · rw [hstep, (ih (some r0)).1]
            constructor
            · rintro ⟨h1, _⟩; cases h1
            · rintro ⟨h1, _⟩; cases h1
          · intro b h
            rw [hstep] at h
            rcases (ih (some r0)).2 b h with ⟨h1, h2⟩ | ⟨i, rp, h1, h2, h3, h4, h5, h6⟩
            · obtain rfl : r0 = b := Option.some_inj.mp h1
              refine Or.inr ⟨0, rp0, by simp, hrp, hcond.1, ?_, ?_, by omega⟩
              · intro d0 hd0
                cases hd0
                exact hcond.2
              · intro r hr rp' hrp' hne
                rcases List.mem_cons.mp hr with hr | hr
                · rw [hr] at hrp'; rw [hrp] at hrp'
                  cases hrp'
                  simp [hrp]
                · have := h2 r hr rp' hrp' hne
                  rw [hrp] at this
                  simpa using this
            · have hlt0 := h4 r0 rfl
              rw [hrp] at hlt0
              simp at hlt0
              refine Or.inr ⟨i + 1, rp, by simpa using h1, h2, h3, ?_, ?_, ?_⟩
              · intro d0 hd0
                cases hd0
                exact lt_trans hcond.2 hlt0
              · intro r hr rp' hrp' hne
                rcases List.mem_cons.mp hr with hr | hr
                · rw [hr] at hrp'; rw [hrp] at hrp'
                  cases hrp'
                  exact le_of_lt hlt0
                · exact h5 r hr rp' hrp' hne
              · intro j r' hj hr' rp' hrp' hne
                cases j with
                | zero =>
                  simp at hr'
                  rw [← hr'] at hrp'
                  rw [hrp] at hrp'
                  cases hrp'
                  exact hlt0
                | succ j' => exact h6 j' r' (by omega) (by simpa using hr') rp' hrp' hne
        · have hstep : scanBestKill (some b0) (r0 :: rest) = scanBestKill (some b0) rest := by
            simp only [scanBestKill, hrp, if_neg hcond]
          have hr0le : rp0 ≠ 0 → rp0 ≤ b0.rankPercent.getD 0 := by
            intro hne
            by_contra hgt
            exact hcond ⟨hne, not_le.mp hgt⟩
          constructor
          · rw [hstep, (ih (some b0)).1]
            constructor
            · rintro ⟨h1, _⟩; cases h1
            · rintro ⟨h1, _⟩; cases h1
          · intro b h
            rw [hstep] at h
            rcases (ih (some b0)).2 b h with ⟨h1, h2⟩ | ⟨i, rp, h1, h2, h3, h4, h5, h6⟩
            · obtain rfl : b0 = b := Option.some_inj.mp h1
              refine Or.inl ⟨rfl, ?_⟩
              intro r hr rp' hrp' hne
              rcases List.mem_cons.mp hr with hr | hr
              · rw [hr] at hrp'; rw [hrp] at hrp'
                cases hrp'
                exact hr0le hne
              · exact h2 r hr rp' hrp' hne
            · have hlt0 := h4 b0 rfl
              refine Or.inr ⟨i + 1, rp, by simpa using h1, h2, h3, ?_, ?_, ?_⟩
              · intro d0 hd0
                cases hd0
                exact hlt0
              · intro r hr rp' hrp' hne
                rcases List.mem_cons.mp hr with hr | hr
                · rw [hr] at hrp'; rw [hrp] at hrp'
                  cases hrp'
                  exact le_of_lt (lt_of_le_of_lt (hr0le hne) hlt0)
                · exact h5 r hr rp' hrp' hne
              · intro j r' hj hr' rp' hrp' hne
                cases j with
                | zero =>
                  simp at hr'
                  rw [← hr'] at hrp'
                  rw [hrp] at hrp'
                  cases hrp'
                  exact lt_of_le_of_lt (hr0le hne) hlt0
                | succ j' => exact h6 j' r' (by omega) (by simpa using hr') rp' hrp' hne

/-- Filtering preserves the relative order of first occurrences. -/
theorem indexOf_filter_strictMono (l : List String) (p : String → Bool) :
    ∀ x y, x ∈ l.filter p → y ∈ l.filter p →
      l.indexOf x < l.indexOf y →
      (l.filter p).indexOf x < (l.filter p).indexOf y := by
  induction l with
  | nil => intro x y hx _ _; simp at hx
  | cons a l' ih =>
    intro x y hx hy hlt
    by_cases hpa : p a = true
    · have hfil : (a :: l').filter p = a :: l'.filter p := by
        simp [List.filter_cons, hpa]
      rw [hfil] at hx hy ⊢
      by_cases hya : y = a
      · exfalso
        rw [hya, List.indexOf_cons_self] at hlt
        omega
      · by_cases hxa : x = a
        · rw [hxa, List.indexOf_cons_self, List.indexOf_cons_ne _ (Ne.symm hya)]
          omega
        · rw [List.indexOf_cons_ne _ (Ne.symm hxa), List.indexOf_cons_ne _ (Ne.symm hya)]
          have hlt' : l'.indexOf x < l'.indexOf y := by
            rw [List.indexOf_cons_ne _ (Ne.symm hxa),
              List.indexOf_cons_ne _ (Ne.symm hya)] at hlt
            omega
          have hx' : x ∈ l'.filter p := by
            rcases List.mem_cons.mp hx with h | h
            · exact absurd h hxa
            · exact h
          have hy' : y ∈ l'.filter p := by
            rcases List.mem_cons.mp hy with h | h
            · exact absurd h hya
            · exact h
          have := ih x y hx' hy' hlt'
          omega
    · have hfil : (a :: l').filter p = l'.filter p := by
        simp [List.filter_cons, hpa]
      rw [hfil] at hx hy ⊢
      have hxa : x ≠ a := by
        intro he
        rw [he] at hx
        exact hpa (List.mem_filter.mp hx).2
      have hya : y ≠ a := by
        intro he
        rw [he] at hy
        exact hpa (List.mem_filter.mp hy).2
      have hlt' : l'.indexOf x < l'.indexOf y := by
        rw [List.indexOf_cons_ne _ (Ne.symm hxa),
          List.indexOf_cons_ne _ (Ne.symm hya)] at hlt
        omega
      exact ih x y hx hy hlt'

/-- Positions in `firstDedup` are ordered by first occurrence in the
original list. -/
theorem fd_pos_indexOf_mono (ts : List String) :
    ∀ (i j : Nat) (s q : String), i ≤ j →
      (firstDedup ts)[i]? = some s → (firstDedup ts)[j]? = some q →
      ts.indexOf s ≤ ts.indexOf q := by
  induction ts using firstDedup.induct with
  | case1 => intro i j s q _ hs _; simp [firstDedup] at hs
  | case2 a rest ih =>
    intro i j s q hij hs hq
    have hfd : firstDedup (a :: rest) =
        a :: firstDedup (rest.filter fun x => decide (x ≠ a)) := by
      simp only [firstDedup]
    rw [hfd] at hs hq
    cases i with
    | zero =>
      simp at hs
      rw [← hs, List.indexOf_cons_self]
      omega
    | succ i' =>
      cases j with
      | zero => omega
      | succ j' =>
        have hs' : (firstDedup (rest.filter fun x => decide (x ≠ a)))[i']? = some s := by
          simpa using hs
        have hq' : (firstDedup (rest.filter fun x => decide (x ≠ a)))[j']? = some q := by
          simpa using hq
        have hsm : s ∈ rest.filter (fun x => decide (x ≠ a)) :=
          (mem_firstDedup _ s).mp (List.getElem?_mem hs')
        have hqm : q ∈ rest.filter (fun x => decide (x ≠ a)) :=
          (mem_firstDedup _ q).mp (List.getElem?_mem hq')
        have hsa : s ≠ a := by
          have := (List.mem_filter.mp hsm).2
          simpa using this
        have hqa : q ≠ a := by
          have := (List.mem_filter.mp hqm).2
          simpa using this
        have hrec := ih i' j' s q (by omega) hs' hq'
        have hrest : rest.indexOf s ≤ rest.indexOf q := by
          by_contra hgt
          push_neg at hgt
          have := indexOf_filter_strictMono rest _ q s hqm hsm hgt
          omega
        rw [List.indexOf_cons_ne _ (Ne.symm hsa), List.indexOf_cons_ne _ (Ne.symm hqa)]
        omega

/-- The spec-count table has the truthy specs as keys, in first-occurrence
order, each with its occurrence count. -/
theorem specCounts_facts (rs : List WLRanking) :
    (buildSpecCounts [] rs).map Prod.fst = firstDedup (truthySpecs rs) ∧
    ∀ p ∈ buildSpecCounts [] rs, p.2 = (truthySpecs rs).count p.1 := by
  have hkeys : (buildSpecCounts [] rs).map Prod.fst = firstDedup (truthySpecs rs) := by
    rw [buildSpecCounts_eq_foldl, foldl_insertIncr_keys]
    have hfil : (truthySpecs rs).filter
        (fun x => decide (x ∉ (([] : List (String × Nat))).map Prod.fst)) =
        truthySpecs rs := by
      simp
    rw [hfil]
    simp
  refine ⟨hkeys, ?_⟩
  intro p hp
  obtain ⟨j, hj⟩ := List.getElem?_of_mem hp
  have hnd : ((buildSpecCounts [] rs).map Prod.fst).Nodup := by
    rw [hkeys]
    exact firstDedup_nodup _
  have hlk := lkCount_of_getElem _ hnd j p.1 p.2 (by simpa using hj)
  rw [buildSpecCounts_eq_foldl, lkCount_foldl] at hlk
  simpa [lkCount] using hlk.symm

/-- C5: `parseWarcraftLogsResponse` flattens all per-zone ranking entries
into one list; the reported most-played spec is the spec value with the
highest occurrence count across all entries with the first-seen spec
winning ties; the reported global best kill is the entry with the
numerically highest rank-percentile value, chosen by strict greater-than
comparison so the first-seen entry wins ties; and the class name is
resolved from the class index via the alphabetical Class Name Table. -/
theorem c5_parseWarcraftLogsResponse_normalization :
    ∀ ch : WLCharacter,
      (parseWarcraftLogsResponse ch).«class» = getWCLClassName ch.classID ∧
      ((parseWarcraftLogsResponse ch).spec = none ↔
        truthySpecs (flattenRankings ch.zoneRankings) = []) ∧
      (∀ s, (parseWarcraftLogsResponse ch).spec = some s →
        s ∈ truthySpecs (flattenRankings ch.zoneRankings) ∧
        (∀ q ∈ truthySpecs (flattenRankings ch.zoneRankings),
          (truthySpecs (flattenRankings ch.zoneRankings)).count q ≤
            (truthySpecs (flattenRankings ch.zoneRankings)).count s) ∧
        (∀ q ∈ truthySpecs (flattenRankings ch.zoneRankings),
          (truthySpecs (flattenRankings ch.zoneRankings)).count q =
            (truthySpecs (flattenRankings ch.zoneRankings)).count s →
          (truthySpecs (flattenRankings ch.zoneRankings)).indexOf s ≤
            (truthySpecs (flattenRankings ch.zoneRankings)).indexOf q)) ∧
      ((parseWarcraftLogsResponse ch).bestKillLatestSeason = none ↔
        ∀ r ∈ flattenRankings ch.zoneRankings, ∀ rp, r.rankPercent = some rp → rp = 0) ∧
      (∀ bk, (parseWarcraftLogsResponse ch).bestKillLatestSeason = some bk →
        ∃ (i : Nat) (r : WLRanking) (rp : ℚ),
          (flattenRankings ch.zoneRankings)[i]? = some r ∧
          r.rankPercent = some rp ∧ rp ≠ 0 ∧
          (∀ r' ∈ flattenRankings ch.zoneRankings, ∀ rp',
            r'.rankPercent = some rp' → rp' ≠ 0 → rp' ≤ rp) ∧
          (∀ (j : Nat) (r' : WLRanking), j < i →
            (flattenRankings ch.zoneRankings)[j]? = some r' →
            ∀ rp', r'.rankPercent = some rp' → rp' ≠ 0 → rp' < rp) ∧
          bk = buildBestKillOut r) := by
  intro ch
  obtain ⟨hkeys, hcnt⟩ := specCounts_facts (flattenRankings ch.zoneRankings)
  have hgo := scanMostPlayed_go (buildSpecCounts [] (flattenRankings ch.zoneRankings)) none 0
  have hbgo := scanBestKill_go (flattenRankings ch.zoneRankings) none
  refine ⟨rfl, ?_, ?_, ?_, ?_⟩
  · show mostPlayedSpecOf (flattenRankings ch.zoneRankings) = none ↔ _
    rw [mostPlayedSpecOf, hgo.1]
    constructor
    · rintro ⟨_, h2⟩
      by_contra hne
      obtain ⟨s, hs⟩ := List.exists_mem_of_ne_nil _ hne
      have hsfd : s ∈ firstDedup (truthySpecs (flattenRankings ch.zoneRankings)) :=
        (mem_firstDedup _ s).mpr hs
      rw [← hkeys] at hsfd
      obtain ⟨p, hp, hps⟩ := List.mem_map.mp hsfd
      have hc := hcnt p hp
      have hpos : 0 < (truthySpecs (flattenRankings ch.zoneRankings)).count p.1 :=
        List.count_pos_iff.mpr (hps ▸ hs)
      have := h2 p hp
      omega
    · intro hts
      refine ⟨rfl, ?_⟩
      intro p hp
      have hmap : (buildSpecCounts [] (flattenRankings ch.zoneRankings)).map Prod.fst = [] := by
        rw [hkeys, hts]
        simp [firstDedup]
      have hnil := List.map_eq_nil_iff.mp hmap
      rw [hnil] at hp
      simp at hp
  · intro s hs
    replace hs : mostPlayedSpecOf (flattenRankings ch.zoneRankings) = some s := hs
    rw [mostPlayedSpecOf] at hs
    rcases hgo.2 s hs with ⟨h1, _⟩ | ⟨i, c, h1, h2, h3, h4⟩
    · cases h1
    · have hki : (firstDedup (truthySpecs (flattenRankings ch.zoneRankings)))[i]? = some s := by
        rw [← hkeys, List.getElem?_map, h1]
        rfl
      have hsmem : s ∈ truthySpecs (flattenRankings ch.zoneRankings) :=
        (mem_firstDedup _ s).mp (List.getElem?_mem hki)
      have hc : c = (truthySpecs (flattenRankings ch.zoneRankings)).count s := by
        have := hcnt (s, c) (List.getElem?_mem h1)
        simpa using this
      refine ⟨hsmem, ?_, ?_⟩
      · intro q hq
        have hqfd := (mem_firstDedup (truthySpecs (flattenRankings ch.zoneRankings)) q).mpr hq
        rw [← hkeys] at hqfd
        obtain ⟨p, hp, hpq⟩ := List.mem_map.mp hqfd
        have hle := h3 p hp
        have hcq := hcnt p hp
        rw [hpq] at hcq
        omega
      · intro q hq heq
        have hqfd := (mem_firstDedup (truthySpecs (flattenRankings ch.zoneRankings)) q).mpr hq
        obtain ⟨jq, hjq⟩ := List.getElem?_of_mem hqfd
        have hmapq : ((buildSpecCounts [] (flattenRankings ch.zoneRankings)).map
            Prod.fst)[jq]? = some q := by
          rw [hkeys]
          exact hjq
        rw [List.getElem?_map] at hmapq
        obtain ⟨p, hp1, hp2⟩ := Option.map_eq_some'.mp hmapq
        have hcq : p.2 = (truthySpecs (flattenRankings ch.zoneRankings)).count q := by
          have := hcnt p (List.getElem?_mem hp1)
          rw [hp2] at this
          exact this
        have hij : i ≤ jq := by
          by_contra hlt
          push_neg at hlt
          have := h4 jq p hlt hp1
          omega
        exact fd_pos_indexOf_mono (truthySpecs (flattenRankings ch.zoneRankings))
          i jq s q hij hki hjq
  · show (scanBestKill none (flattenRankings ch.zoneRankings)).map buildBestKillOut = none ↔ _
    rw [Option.map_eq_none', hbgo.1]
    simp
  · intro bk hbk
    replace hbk : (scanBestKill none (flattenRankings ch.zoneRankings)).map buildBestKillOut =
        some bk := hbk
    obtain ⟨b, hb1, hb2⟩ := Option.map_eq_some'.mp hbk
    rcases hbgo.2 b hb1 with ⟨h1, _⟩ | ⟨i, rp, h1, h2, h3, _, h5, h6⟩
    · cases h1
    · exact ⟨i, b, rp, h1, h2, h3, h5, h6, hb2.symm⟩

/-- Closed instance of `c5_parseWarcraftLogsResponse_normalization`: class
resolution and the empty-rankings case at a concrete character. -/
theorem c5_parseWarcraftLogsResponse_normalization_witness :
    (parseWarcraftLogsResponse
      ⟨some 1, "Testchar", "Area 52", "us".toList, 8, []⟩).«class» =
      getWCLClassName 8 ∧
    ((parseWarcraftLogsResponse
      ⟨some 1, "Testchar", "Area 52", "us".toList, 8, []⟩).spec = none ↔
      truthySpecs (flattenRankings ([] : List WLZoneData)) = []) :=
  ⟨(c5_parseWarcraftLogsResponse_normalization
      ⟨some 1, "Testchar", "Area 52", "us".toList, 8, []⟩).1,
   (c5_parseWarcraftLogsResponse_normalization
      ⟨some 1, "Testchar", "Area 52", "us".toList, 8, []⟩).2.1⟩

/-! ## Enrichment cache operations (src/lib/character-enrichment-cache.ts) -/

/-- JS `seasonKey || 'latest'` (empty string is falsy). -/
def seasonKeyD (x : Option String) : String :=
  match x with
  | some s => if s = "" then "latest" else s
  | none => "latest"

/-- JS `x || null` on an optional string value. -/
def orNullStr (x : Option String) : Option String :=
  match x with
  | some s => if s = "" then none else some s
  | none => none

/-- Upsert/update payload: an outer `none` means the field was not supplied
(JS `undefined`); for nullable columns an inner `none` means an explicit
SQL NULL. -/
structure CacheUpsertData where
  region : String
  realm : String
  character_name : String
  season_key : Option String
  player_card : Option StoredCard
  wcl_last_fetched_at : Option (Option String)
  blizzard_last_fetched_at : Option (Option String)
  fetch_status : Option FetchStatus
  error_message : Option (Option String)
deriving DecidableEq, Repr

/-- The four-part unique key comparison of the WHERE clauses. -/
def keyMatches (r : CacheRow) (region realm name seasonKey : String) : Bool :=
  decide (r.region = region ∧ r.realm = realm ∧
    r.character_name = name ∧ r.season_key = seasonKey)

/-- Lookup argument of the cache operations. -/
structure CacheLookup where
  region : String
  realm : String
  character_name : String
  season_key : Option String
deriving DecidableEq, Repr

/-- Embedding of `findCachedCharacter`: point SELECT on the unique key,
season defaulting to `'latest'`. -/
def findCachedCharacter (store : List CacheRow) (lookup : CacheLookup) : Option CacheRow :=
  store.find? fun r => keyMatches r lookup.region lookup.realm lookup.character_name
    (seasonKeyD lookup.season_key)

/-- Embedding of `createCacheEntry`: INSERT with defaults
(`player_card || {}`, `fetch_status || 'partial'`, `|| null` on the
nullable columns); both timestamps are set to the insertion time. -/
def createCacheEntry (store : List CacheRow) (data : CacheUpsertData) (now : Int) :
    List CacheRow × CacheRow :=
  let row : CacheRow :=
    { region := data.region
      realm := data.realm
      character_name := data.character_name
      season_key := seasonKeyD data.season_key
      player_card := data.player_card.getD ⟨none, none, none, none, none⟩
      wcl_last_fetched_at := orNullStr (data.wcl_last_fetched_at.getD none)
      blizzard_last_fetched_at := orNullStr (data.blizzard_last_fetched_at.getD none)
      fetch_status := data.fetch_status.getD .incomplete
      error_message := orNullStr (data.error_message.getD none)
      created_at := now
      updated_at := now }
  (store ++ [row], row)

/-- The SET clause of `updateCacheEntry` applied to one row: only supplied
fields change, `updated_at` is set to the update time. -/
def applyCacheUpdate (r : CacheRow) (updates : CacheUpsertData) (now : Int) : CacheRow :=
  { r with
    player_card := updates.player_card.getD r.player_card
    wcl_last_fetched_at :=
      match updates.wcl_last_fetched_at with
      | some v => v
      | none => r.wcl_last_fetched_at
    blizzard_last_fetched_at :=
      match updates.blizzard_last_fetched_at with
      | some v => v
      | none => r.blizzard_last_fetched_at
    fetch_status := updates.fetch_status.getD r.fetch_status
    error_message :=
      match updates.error_message with
      | some v => v
      | none => r.error_message
    updated_at := now }

/-- True when at least one data field is supplied (the source's
`fields.length === 1` early return fires exactly when this is false). -/
def hasUpdateFields (u : CacheUpsertData) : Bool :=
  u.player_card.isSome || u.wcl_last_fetched_at.isSome ||
    u.blizzard_last_fetched_at.isSome || u.fetch_status.isSome || u.error_message.isSome

/-- Embedding of `updateCacheEntry`: with no supplied fields the UPDATE is
skipped entirely; otherwise every key-matching row is updated and the row is
re-read. -/
def updateCacheEntry (store : List CacheRow) (lookup : CacheLookup)
    (updates : CacheUpsertData) (now : Int) : List CacheRow × Option CacheRow :=
  let seasonKey := seasonKeyD lookup.season_key
  if hasUpdateFields updates = false then (store, findCachedCharacter store lookup)
  else
    let newStore := store.map fun r =>
      if keyMatches r lookup.region lookup.realm lookup.character_name seasonKey then
        applyCacheUpdate r updates now
      else r
    (newStore, findCachedCharacter newStore lookup)

/-- Embedding of `upsertCacheEntry`: update when the key exists, insert
otherwise. -/
def upsertCacheEntry (store : List CacheRow) (data : CacheUpsertData) (now : Int) :
    List CacheRow × Option CacheRow :=
  let lookup : CacheLookup := ⟨data.region, data.realm, data.character_name, data.season_key⟩
  match findCachedCharacter store lookup with
  | some _ => updateCacheEntry store lookup data now
  | none =>
    let created := createCacheEntry store data now
    (created.1, some created.2)

/-! ## The POST /api/enrich-player-card slug flow (src/unnamed/part_002) -/

/-- `CACHE_TTL_HOURS = 6` in the route module. -/
def CACHE_TTL_HOURS : ℚ := 6

/-- Error thrown by `fetchWarcraftLogsCharacter`: its `code` property (absent
on foreign errors) and its message. -/
structure WclFailure where
  code : Option String
  message : String
deriving DecidableEq, Repr

/-- The fields of `fetchWarcraftLogsCharacter`'s result that the route
reads when building a fresh card. -/
structure WclData where
  characterId : Option Int
  characterName : String
  realm : String
  region : String
  «class» : Option String
  spec : Option String
  classSpec : Option String
  avatarUrl : Option String
deriving DecidableEq, Repr

/-- A slug-form request after body destructuring and URL parsing:
`seasonKey` already carries its `'latest'` destructuring default. -/
structure EnrichRequest where
  region : String
  realm : String
  characterName : String
  originalUrl : String
  seasonKey : String
  forceRefresh : Bool
deriving DecidableEq, Repr

/-- The `PlayerCard` response payload. `updatedAt` is a timestamp in
milliseconds (the source uses ISO strings). -/
structure PlayerCard where
  warcraftLogsUrl : String
  characterName : String
  realm : String
  region : String
  «class» : Option String
  spec : Option String
  avatarUrl : Option String
  bestKillLatestSeason : Option BestKill
  classSpec : Option String
  updatedAt : Int
  fetchStatus : FetchStatus
  errorMessage : Option String
  seasonConfigUpdatedAt : Option String
deriving DecidableEq, Repr

/-- HTTP outcome of the route: `successResponse(data, message)` or
`errorResponse(message, status)`. -/
inductive EnrichResponse where
  | ok (card : PlayerCard) (message : Option String)
  | err (message : String) (status : Nat)
deriving DecidableEq, Repr

/-- The projection of a serialized `PlayerCard` onto the `player_card`
blob fields that are later read back by `buildPlayerCardFromCache`. -/
def storedCardOf (card : PlayerCard) : StoredCard :=
  ⟨card.«class», card.spec, card.avatarUrl, card.bestKillLatestSeason, card.classSpec⟩

/-- Embedding of `buildPlayerCardFromCache`: every data field comes from the
cached row (`|| null` / `|| undefined` coalescing on the string fields, and
the conditional `seasonConfigUpdatedAt` stamp); `warcraftLogsUrl` is the
caller's echo; `fetch_status` is a NOT NULL column, so its `|| 'partial'`
fallback is the identity here. -/
def buildPlayerCardFromCache (cached : CacheRow) (warcraftLogsUrl : String)
    (seasonConfigUpdatedAt : Option String) : PlayerCard :=
  { warcraftLogsUrl := warcraftLogsUrl
    characterName := cached.character_name
    realm := cached.realm
    region := cached.region
    «class» := orNullStr cached.player_card.«class»
    spec := orNullStr cached.player_card.spec
    avatarUrl := orNullStr cached.player_card.avatarUrl
    bestKillLatestSeason := cached.player_card.bestKillLatestSeason
    classSpec := orNullStr cached.player_card.classSpec
    updatedAt := cached.updated_at
    fetchStatus := cached.fetch_status
    errorMessage := orNullStr cached.error_message
    seasonConfigUpdatedAt := orNullStr seasonConfigUpdatedAt }

/-- JS `hay.includes(needle)` on strings. -/
def containsSubStr (hay needle : String) : Bool :=
  containsSub hay.toList needle.toList

/-- The no-cache error mapping of the fetch-failure catch block. The source
message for the not-found case is reproduced with its contraction expanded
(\x22does not exist\x22). -/
def mapWclFailure (f : WclFailure) : EnrichResponse :=
  if f.code = some "WCL_OAUTH_FAILED" then
    .err "Could not authenticate with Warcraft Logs" 502
  else if f.code = some "WCL_GRAPHQL_FAILED" ∨ f.code = some "WCL_GRAPHQL_ERROR" then
    .err "Warcraft Logs API request failed" 502
  else if f.code = some "WCL_CHARACTER_NOT_FOUND" ∨ containsSubStr f.message "not found" then
    .err "Character not found on Warcraft Logs. The character may have been deleted, transferred, or does not exist. Please verify the character name, realm, and region." 502
  else
    .err ("Warcraft Logs API error: " ++ f.message) 502

/-- Route environment: configuration flag, database health, active season
config stamp, current cache store, the (deterministic) outcome of the
upstream fetch and of the best-kill sub-fetch, and the current time as
milliseconds (`nowMs`) and as its ISO rendering (`nowIso`). -/
structure EnrichEnv where
  configured : Bool
  dbOk : Bool
  seasonConfigUpdatedAt : Option String
  store : List CacheRow
  fetchResult : Except WclFailure WclData
  bestKill : Option BestKill
  nowMs : Int
  nowIso : String

/-- The part of the slug flow after the freshness check: the second
`isWarcraftLogsConfigured` guard with its stale-cache fallback, the fresh
fetch with its cache upsert, and the fetch-failure handling. -/
def enrichFetch (env : EnrichEnv) (req : EnrichRequest) (cachedData : Option CacheRow) :
    EnrichResponse × List CacheRow :=
  if env.configured = false then
    match cachedData with
    | some c =>
      (.ok (buildPlayerCardFromCache c req.originalUrl env.seasonConfigUpdatedAt)
        (some "WCL API not configured. Returning stale cached data."), env.store)
    | none =>
      (.err "Warcraft Logs API is not configured and no cached data is available" 503,
        env.store)
  else
    match env.fetchResult with
    | .ok wclData =>
      let card : PlayerCard :=
        { warcraftLogsUrl := req.originalUrl
          characterName := wclData.characterName
          realm := wclData.realm
          region := wclData.region
          «class» := wclData.«class»
          spec := wclData.spec
          avatarUrl := wclData.avatarUrl
          bestKillLatestSeason := env.bestKill
          classSpec := wclData.classSpec
          updatedAt := env.nowMs
          fetchStatus := .complete
          errorMessage := none
          seasonConfigUpdatedAt := orNullStr env.seasonConfigUpdatedAt }
      (.ok card (some "Player card enriched successfully"),
        (upsertCacheEntry env.store
          ⟨req.region, req.realm, req.characterName, some req.seasonKey,
            some (storedCardOf card), some (some env.nowIso), none, some .complete,
            some none⟩ env.nowMs).1)
    | .error f =>
      match cachedData with
      | some c =>
        let store2 := (upsertCacheEntry env.store
          ⟨req.region, req.realm, req.characterName, some req.seasonKey,
            none, none, none, some .failed, some (some f.message)⟩ env.nowMs).1
        let card0 := buildPlayerCardFromCache c req.originalUrl env.seasonConfigUpdatedAt
        let msg := "Failed to fetch fresh data: " ++ f.message ++ ". Returning cached data."
        (.ok { card0 with errorMessage := some msg }
          (some "Returning cached data (fetch failed)"), store2)
      | none => (mapWclFailure f, env.store)

/-- Embedding of the POST handler's slug path: the pre-flight configuration
and database guards, the cache lookup (skipped under `forceRefresh`), the
freshness short-circuit, then `enrichFetch`. Returns the HTTP outcome and
the cache store after the request. -/
def enrichSlug (env : EnrichEnv) (req : EnrichRequest) : EnrichResponse × List CacheRow :=
  if env.configured = false then
    (.err "Warcraft Logs API credentials not configured. Please contact administrator." 503,
      env.store)
  else if env.dbOk = false then
    (.err "Database unavailable. Please try again later." 503, env.store)
  else
    let cachedData :=
      if req.forceRefresh then none
      else findCachedCharacter env.store
        ⟨req.region, req.realm, req.characterName, some req.seasonKey⟩
    match cachedData with
    | some c =>
      if isCacheStale (some c) CACHE_TTL_HOURS env.nowMs = false then
        (.ok (buildPlayerCardFromCache c req.originalUrl env.seasonConfigUpdatedAt)
          (some "Player card returned from cache"), env.store)
      else enrichFetch env req (some c)
    | none => enrichFetch env req none

/-! ## Sample cache data for closed instances -/

def sampleRow : CacheRow :=
  ⟨"us", "stormrage", "Testchar", "latest",
    ⟨some "Rogue", some "Subtlety", none, none, none⟩,
    none, none, .complete, none, 0, 0⟩

def sampleEmptyUpdate : CacheUpsertData :=
  ⟨"us", "stormrage", "Testchar", some "latest", none, none, none, none, none⟩

def sampleStatusUpdate : CacheUpsertData :=
  ⟨"us", "stormrage", "Testchar", some "latest", none, none, none,
    some .failed, some (some "boom")⟩

/-! ## C8: upsert partial-update semantics -/

/-- C8 counterexample: an upsert that supplies no data fields beyond the key
leaves the store — in particular the matched row's `updated_at` — completely
unchanged, because `updateCacheEntry` returns early when only `updated_at`
would be set. The claim says `updatedAt` is always refreshed. -/
theorem c8_always_refresh_counterexample :
    findCachedCharacter [sampleRow] ⟨"us", "stormrage", "Testchar", some "latest"⟩ =
      some sampleRow ∧
    (upsertCacheEntry [sampleRow] sampleEmptyUpdate 100).1 = [sampleRow] ∧
    sampleRow.updated_at = 0 := by
  decide

/-- Key fields and `created_at` survive `applyCacheUpdate`. -/
theorem applyCacheUpdate_key (r : CacheRow) (u : CacheUpsertData) (now : Int) :
    (applyCacheUpdate r u now).region = r.region ∧
    (applyCacheUpdate r u now).realm = r.realm ∧
    (applyCacheUpdate r u now).character_name = r.character_name ∧
    (applyCacheUpdate r u now).season_key = r.season_key ∧
    (applyCacheUpdate r u now).created_at = r.created_at :=
  ⟨rfl, rfl, rfl, rfl, rfl⟩

/-- C8 (amended): upsert on an existing key updates in place: with no
supplied data fields the store is returned untouched (so `updated_at` is
**not** refreshed in that case); with at least one supplied field every
key-matching row is rewritten by `applyCacheUpdate`, which refreshes
`updated_at`, keeps the key and `created_at`, and leaves every unsupplied
data field unchanged. On a missing key the upsert appends the created row. -/
theorem c8_upsert_partial_update (store : List CacheRow) (data : CacheUpsertData) (now : Int) :
    (∀ r, findCachedCharacter store
        ⟨data.region, data.realm, data.character_name, data.season_key⟩ = some r →
      (hasUpdateFields data = false → (upsertCacheEntry store data now).1 = store) ∧
      (hasUpdateFields data = true →
        (upsertCacheEntry store data now).1 =
          store.map (fun row =>
            if keyMatches row data.region data.realm data.character_name
                (seasonKeyD data.season_key) then
              applyCacheUpdate row data now
            else row) ∧
        (applyCacheUpdate r data now).updated_at = now ∧
        (applyCacheUpdate r data now).created_at = r.created_at ∧
        (applyCacheUpdate r data now).region = r.region ∧
        (applyCacheUpdate r data now).realm = r.realm ∧
        (applyCacheUpdate r data now).character_name = r.character_name ∧
        (applyCacheUpdate r data now).season_key = r.season_key ∧
        (data.player_card = none →
          (applyCacheUpdate r data now).player_card = r.player_card) ∧
        (data.wcl_last_fetched_at = none →
          (applyCacheUpdate r data now).wcl_last_fetched_at = r.wcl_last_fetched_at) ∧
        (data.blizzard_last_fetched_at = none →
          (applyCacheUpdate r data now).blizzard_last_fetched_at =
            r.blizzard_last_fetched_at) ∧
        (data.fetch_status = none →
          (applyCacheUpdate r data now).fetch_status = r.fetch_status) ∧
        (data.error_message = none →
          (applyCacheUpdate r data now).error_message = r.error_message))) ∧
    (findCachedCharacter store
        ⟨data.region, data.realm, data.character_name, data.season_key⟩ = none →
      (upsertCacheEntry store data now).1 =
        store ++ [(createCacheEntry store data now).2]) := by
  constructor
  · intro r hfind
    constructor
    · intro hno
      simp [upsertCacheEntry, hfind, updateCacheEntry, hno]
    · intro hyes
      refine ⟨?_, rfl, rfl, rfl, rfl, rfl, rfl, ?_, ?_, ?_, ?_, ?_⟩
      · simp [upsertCacheEntry, hfind, updateCacheEntry, hyes]
      · intro h; simp [applyCacheUpdate, h]
      · intro h; simp [applyCacheUpdate, h]
      · intro h; simp [applyCacheUpdate, h]
      · intro h; simp [applyCacheUpdate, h]
      · intro h; simp [applyCacheUpdate, h]
  · intro hnone
    simp [upsertCacheEntry, hnone, createCacheEntry]

/-- Closed instance of `c8_upsert_partial_update`: a status-only update on
an existing row rewrites the store through `applyCacheUpdate`, and the
updated row carries the new `updated_at` while `player_card` is untouched. -/
theorem c8_upsert_partial_update_witness :
    (upsertCacheEntry [sampleRow] sampleStatusUpdate 5).1 =
      [sampleRow].map (fun row =>
        if keyMatches row sampleStatusUpdate.region sampleStatusUpdate.realm
            sampleStatusUpdate.character_name (seasonKeyD sampleStatusUpdate.season_key) then
          applyCacheUpdate row sampleStatusUpdate 5
        else row) ∧
    (applyCacheUpdate sampleRow sampleStatusUpdate 5).updated_at = 5 ∧
    (applyCacheUpdate sampleRow sampleStatusUpdate 5).player_card = sampleRow.player_card := by
  have h := ((c8_upsert_partial_update [sampleRow] sampleStatusUpdate 5).1 sampleRow
    (by decide)).2 (by decide)
  exact ⟨h.1, h.2.1, h.2.2.2.2.2.2.2.1 (by decide)⟩

/-! ## C9: fresh cache hit is terminal -/

/-- `x || null` is the identity away from the empty string. -/
theorem orNullStr_eq_self (x : Option String) (h : x ≠ some "") : orNullStr x = x := by
  match x with
  | none => rfl
  | some s =>
    have hs : s ≠ "" := fun he => h (by rw [he])
    simp [orNullStr, hs]

/-- C9: on a slug request with configuration and database healthy, no
`forceRefresh`, and a cache hit that is not stale at the 6-hour TTL, the
route is terminal: it returns the cached card (every data field from the
cached record, `warcraftLogsUrl` re-stamped from the request) as a success
with the cache message, and the store is unchanged. The cached string
fields are assumed non-empty-string, where the JS `|| null` coalescing
would turn them into null. -/
theorem c9_fresh_cache_terminal
    (env : EnrichEnv) (req : EnrichRequest) (c : CacheRow)
    (hconf : env.configured = true) (hdb : env.dbOk = true)
    (hfr : req.forceRefresh = false)
    (hfind : findCachedCharacter env.store
      ⟨req.region, req.realm, req.characterName, some req.seasonKey⟩ = some c)
    (hfresh : isCacheStale (some c) CACHE_TTL_HOURS env.nowMs = false)
    (h1 : c.player_card.«class» ≠ some "") (h2 : c.player_card.spec ≠ some "")
    (h3 : c.player_card.avatarUrl ≠ some "") (h4 : c.player_card.classSpec ≠ some "")
    (h5 : c.error_message ≠ some "") :
    enrichSlug env req =
      (.ok
        { warcraftLogsUrl := req.originalUrl
          characterName := c.character_name
          realm := c.realm
          region := c.region
          «class» := c.player_card.«class»
          spec := c.player_card.spec
          avatarUrl := c.player_card.avatarUrl
          bestKillLatestSeason := c.player_card.bestKillLatestSeason
          classSpec := c.player_card.classSpec
          updatedAt := c.updated_at
          fetchStatus := c.fetch_status
          errorMessage := c.error_message
          seasonConfigUpdatedAt := orNullStr env.seasonConfigUpdatedAt }
        (some "Player card returned from cache"), env.store) := by
  simp [enrichSlug, hconf, hdb, hfr, hfind, hfresh, buildPlayerCardFromCache,
    orNullStr_eq_self _ h1, orNullStr_eq_self _ h2, orNullStr_eq_self _ h3,
    orNullStr_eq_self _ h4, orNullStr_eq_self _ h5]

def envW : EnrichEnv :=
  ⟨true, true, none, [sampleRow], Except.error ⟨none, "boom"⟩, none, 100, "iso-now"⟩

def reqW : EnrichRequest := ⟨"us", "stormrage", "Testchar", "url-echo", "latest", false⟩

/-- Closed instance of `c9_fresh_cache_terminal` at a concrete fresh cache
row (age 100 ms, TTL 6 h). -/
theorem c9_fresh_cache_terminal_witness :
    enrichSlug envW reqW =
      (.ok
        { warcraftLogsUrl := "url-echo"
          characterName := "Testchar"
          realm := "stormrage"
          region := "us"
          «class» := some "Rogue"
          spec := some "Subtlety"
          avatarUrl := none
          bestKillLatestSeason := none
          classSpec := none
          updatedAt := 0
          fetchStatus := .complete
          errorMessage := none
          seasonConfigUpdatedAt := none }
        (some "Player card returned from cache"), [sampleRow]) :=
  c9_fresh_cache_terminal envW reqW sampleRow rfl rfl rfl (by decide)
    (by norm_num [isCacheStale, sampleRow, CACHE_TTL_HOURS, envW])
    (by decide) (by decide) (by decide) (by decide) (by decide)

/-! ## C1: unconfigured upstream with existing cache -/

/-- C1: when the upstream credentials are not configured, the slug flow
returns the 503 configuration error even when a cache entry exists for the
resolved key, because the pre-flight guard runs before the cache lookup; the
documented stale-cache fallback in the route body is unreachable. -/
theorem c1_unconfigured_with_cache_returns_503
    (env : EnrichEnv) (req : EnrichRequest) (c : CacheRow)
    (hconf : env.configured = false)
    (_hfind : findCachedCharacter env.store
      ⟨req.region, req.realm, req.characterName, some req.seasonKey⟩ = some c) :
    enrichSlug env req =
      (.err "Warcraft Logs API credentials not configured. Please contact administrator." 503,
        env.store) := by
  simp [enrichSlug, hconf]

def envUnconfigured : EnrichEnv :=
  ⟨false, true, none, [sampleRow], Except.error ⟨none, "boom"⟩, none, 100000000, "iso-now"⟩

/-- Closed instance of `c1_unconfigured_with_cache_returns_503`: credentials
unconfigured, a stale cache entry exists (age ≈ 27.8 h > 6 h TTL), yet the
result is the 503 error, not the documented stale-card success. -/
theorem c1_unconfigured_with_cache_returns_503_witness :
    enrichSlug envUnconfigured reqW =
      (.err "Warcraft Logs API credentials not configured. Please contact administrator." 503,
        [sampleRow]) :=
  c1_unconfigured_with_cache_returns_503 envUnconfigured reqW sampleRow rfl (by decide)

/-! ## C2: fetch-failure handling -/

/-- A key-targeted in-place update commutes with the key lookup: searching
the rewritten store finds the rewritten first match. -/
theorem findCached_after_update (store : List CacheRow) (lookup : CacheLookup)
    (u : CacheUpsertData) (now : Int) :
    findCachedCharacter (store.map fun r =>
      if keyMatches r lookup.region lookup.realm lookup.character_name
          (seasonKeyD lookup.season_key) then applyCacheUpdate r u now else r) lookup =
    (findCachedCharacter store lookup).map fun r => applyCacheUpdate r u now := by
  unfold findCachedCharacter
  induction store with
  | nil => rfl
  | cons a t ih =>
    by_cases h : keyMatches a lookup.region lookup.realm lookup.character_name
        (seasonKeyD lookup.season_key) = true
    · have hg : keyMatches (applyCacheUpdate a u now) lookup.region lookup.realm
        lookup.character_name (seasonKeyD lookup.season_key) = true := h
      simp [List.find?_cons, h, hg]
    · rw [Bool.not_eq_true] at h
      have hg : keyMatches (applyCacheUpdate a u now) lookup.region lookup.realm
        lookup.character_name (seasonKeyD lookup.season_key) = false := h
      simp [List.find?_cons, h, hg, ih]

/-- C2: with the upstream configured, the database healthy, and the fetch
failing: (a) if the (stale-or-looked-up) cache entry exists, the store is
rewritten so the key row carries fetch status `failed`, the error text and a
refreshed `updated_at` while its card blob is untouched, and the stale card
is returned as a success annotated with the error message; (b) with no
cache entry the route terminates with the failure-kind 502 mapping:
OAuth/GraphQL failures map to generic bad-gateway messages, character
not-found (by code, or by message text) maps to a 502 telling the user to
verify the identity, and anything unclassified to a generic 502. -/
theorem c2_fetch_failure_handling
    (env : EnrichEnv) (req : EnrichRequest) (f : WclFailure)
    (hconf : env.configured = true) (hdb : env.dbOk = true)
    (hfetch : env.fetchResult = .error f) :
    (∀ c, req.forceRefresh = false →
      findCachedCharacter env.store
        ⟨req.region, req.realm, req.characterName, some req.seasonKey⟩ = some c →
      isCacheStale (some c) CACHE_TTL_HOURS env.nowMs = true →
      (enrichSlug env req).1 =
        .ok { buildPlayerCardFromCache c req.originalUrl env.seasonConfigUpdatedAt with errorMessage := some ("Failed to fetch fresh data: " ++ f.message ++ ". Returning cached data.") }
          (some "Returning cached data (fetch failed)") ∧
      (∃ r, findCachedCharacter (enrichSlug env req).2
          ⟨req.region, req.realm, req.characterName, some req.seasonKey⟩ = some r ∧
        r.fetch_status = .failed ∧
        r.error_message = some f.message ∧
        r.updated_at = env.nowMs ∧
        r.player_card = c.player_card ∧
        r.wcl_last_fetched_at = c.wcl_last_fetched_at)) ∧
    ((if req.forceRefresh then none
      else findCachedCharacter env.store
        ⟨req.region, req.realm, req.characterName, some req.seasonKey⟩) = none →
      (enrichSlug env req).2 = env.store ∧
      (enrichSlug env req).1 = mapWclFailure f ∧
      (∃ m, mapWclFailure f = .err m 502) ∧
      (f.code = some "WCL_OAUTH_FAILED" →
        mapWclFailure f = .err "Could not authenticate with Warcraft Logs" 502) ∧
      ((f.code = some "WCL_GRAPHQL_FAILED" ∨ f.code = some "WCL_GRAPHQL_ERROR") →
        mapWclFailure f = .err "Warcraft Logs API request failed" 502) ∧
      ((f.code ≠ some "WCL_OAUTH_FAILED" ∧ f.code ≠ some "WCL_GRAPHQL_FAILED" ∧
          f.code ≠ some "WCL_GRAPHQL_ERROR") →
        (f.code = some "WCL_CHARACTER_NOT_FOUND" ∨
          containsSubStr f.message "not found" = true) →
        ∃ m, mapWclFailure f = .err m 502 ∧ containsSubStr m "verify" = true) ∧
      ((f.code ≠ some "WCL_OAUTH_FAILED" ∧ f.code ≠ some "WCL_GRAPHQL_FAILED" ∧
          f.code ≠ some "WCL_GRAPHQL_ERROR" ∧ f.code ≠ some "WCL_CHARACTER_NOT_FOUND" ∧
          containsSubStr f.message "not found" = false) →
        mapWclFailure f = .err ("Warcraft Logs API error: " ++ f.message) 502)) := by
  constructor
  · intro c hfr hfind hstale
    have hroute : enrichSlug env req =
        (.ok { buildPlayerCardFromCache c req.originalUrl env.seasonConfigUpdatedAt with errorMessage := some ("Failed to fetch fresh data: " ++ f.message ++ ". Returning cached data.") }
          (some "Returning cached data (fetch failed)"),
        (upsertCacheEntry env.store
          ⟨req.region, req.realm, req.characterName, some req.seasonKey,
            none, none, none, some .failed, some (some f.message)⟩ env.nowMs).1) := by
      simp [enrichSlug, hconf, hdb, hfr, hfind, hstale, enrichFetch, hfetch]
    refine ⟨by rw [hroute], ?_⟩
    have hup : (enrichSlug env req).2 =
        env.store.map (fun row =>
          if keyMatches row req.region req.realm req.characterName
              (seasonKeyD (some req.seasonKey)) then
            applyCacheUpdate row
              ⟨req.region, req.realm, req.characterName, some req.seasonKey,
                none, none, none, some .failed, some (some f.message)⟩ env.nowMs
          else row) := by
      rw [hroute]
      simp [upsertCacheEntry, hfind, updateCacheEntry, hasUpdateFields]
    refine ⟨applyCacheUpdate c
      ⟨req.region, req.realm, req.characterName, some req.seasonKey,
        none, none, none, some .failed, some (some f.message)⟩ env.nowMs,
      ?_, rfl, rfl, rfl, rfl, rfl⟩
    rw [hup]
    have hcomm := findCached_after_update env.store
      ⟨req.region, req.realm, req.characterName, some req.seasonKey⟩
      ⟨req.region, req.realm, req.characterName, some req.seasonKey,
        none, none, none, some .failed, some (some f.message)⟩ env.nowMs
    simp only at hcomm
    rw [hcomm, hfind, Option.map_some']
  · intro hnone
    have hroute : enrichSlug env req = (mapWclFailure f, env.store) := by
      rcases Bool.eq_false_or_eq_true req.forceRefresh with hfr | hfr
      · simp [enrichSlug, hconf, hdb, hfr, enrichFetch, hfetch]
      · rw [if_neg (by simp [hfr])] at hnone
        simp [enrichSlug, hconf, hdb, hfr, hnone, enrichFetch, hfetch]
    refine ⟨by rw [hroute], by rw [hroute], ?_, ?_, ?_, ?_, ?_⟩
    · simp only [mapWclFailure]
      split
      · exact ⟨_, rfl⟩
      · split
        · exact ⟨_, rfl⟩
        · split
          · exact ⟨_, rfl⟩
          · exact ⟨_, rfl⟩
    · intro h; simp [mapWclFailure, h]
    · intro h
      have h1 : ¬ f.code = some "WCL_OAUTH_FAILED" := by
        rcases h with h' | h' <;> simp [h']
      simp only [mapWclFailure]
      rw [if_neg h1, if_pos h]
    · intro ⟨h1, h2, h3⟩ hcond
      simp only [mapWclFailure]
      rw [if_neg h1, if_neg (by simp [h2, h3]), if_pos hcond]
      exact ⟨_, rfl, by decide⟩
    · intro ⟨h1, h2, h3, h4, h5⟩
      simp only [mapWclFailure]
      rw [if_neg h1, if_neg (by simp [h2, h3]), if_neg (by simp [h4, h5])]

def fGraphql : WclFailure := ⟨some "WCL_GRAPHQL_FAILED", "boom"⟩

def envC2 : EnrichEnv :=
  ⟨true, true, none, [sampleRow], Except.error fGraphql, none, 100000000, "iso-now"⟩

def envNoCache : EnrichEnv :=
  ⟨true, true, none, [], Except.error fGraphql, none, 0, "iso-now"⟩

/-- Closed instance of `c2_fetch_failure_handling`: a GraphQL failure over a
stale cache row yields the annotated stale card and a failed cache record,
and the same failure with an empty cache yields the 502 mapping. -/
theorem c2_fetch_failure_handling_witness :
    ((enrichSlug envC2 reqW).1 =
      .ok { buildPlayerCardFromCache sampleRow reqW.originalUrl envC2.seasonConfigUpdatedAt with errorMessage := some ("Failed to fetch fresh data: " ++ fGraphql.message ++ ". Returning cached data.") }
        (some "Returning cached data (fetch failed)") ∧
      (∃ r, findCachedCharacter (enrichSlug envC2 reqW).2
          ⟨reqW.region, reqW.realm, reqW.characterName, some reqW.seasonKey⟩ = some r ∧
        r.fetch_status = .failed ∧
        r.error_message = some fGraphql.message ∧
        r.updated_at = envC2.nowMs ∧
        r.player_card = sampleRow.player_card ∧
        r.wcl_last_fetched_at = sampleRow.wcl_last_fetched_at)) ∧
    ((enrichSlug envNoCache reqW).1 = mapWclFailure fGraphql ∧
      mapWclFailure fGraphql = .err "Warcraft Logs API request failed" 502) :=
  ⟨(c2_fetch_failure_handling envC2 reqW fGraphql rfl rfl rfl).1 sampleRow rfl (by decide)
      (by norm_num [isCacheStale, sampleRow, CACHE_TTL_HOURS, envC2]),
   ⟨((c2_fetch_failure_handling envNoCache reqW fGraphql rfl rfl rfl).2 (by decide)).2.1,
    ((c2_fetch_failure_handling envNoCache reqW fGraphql rfl rfl rfl).2 (by decide)).2.2.2.2.1
      (Or.inl rfl)⟩⟩
